import Mathlib

set_option maxRecDepth 16000
set_option maxHeartbeats 2000000

/-!
Verification of the PDDB dictionary cache and key storage engine
(`services/pddb/src/backend/dictionary.rs`).

This file gives a shallow embedding of `DictCacheEntry` and its operations.
Machine integers are modelled as `Nat`; `u16`/`u32` arithmetic that the code
guards with assertions is modelled with checked (debug) semantics: an
out-of-range operation is a panic, mirroring how the assertion-dense source
treats accounting violations as fatal.  Rust `panic!`/`expect`/`assert!` are
modelled by a `panic` outcome that carries no state (the process aborts);
`return Err(..)` is modelled by an `error` outcome that carries the state,
because the mutated `&mut self` survives an error return.

The AEAD layer is abstracted: pages are stored in plaintext in the model and
`data_decrypt_page` is a partial lookup (`none` models both a missing mapping
and a tag-mismatch failure), which is faithful because AES-GCM-SIV
encryption is a bijection on page contents for a fixed key/nonce/AAD.
Layout constants and the handful of declarations that live outside the
provided source file (`KeySmallPool::new`, `large_pool_vpages`, the
descriptor-page sync driven by the Basis layer) are modelled from the spec
and marked as such in their doc comments.
-/

/-- Virtual page size of the PDDB virtual addressing layer.  Modelled from
the spec: the section-8 vectors fix `VPAGE_SIZE = 4096`. -/
def VPAGE_SIZE : Nat := 4096

/-- Capacity of one small-pool slot.  Modelled from the spec:
`SMALL_CAPACITY = VPAGE_SIZE - journal-counter width`, and the section-8
vectors fix `SMALL_CAPACITY = 4080`. -/
def SMALL_CAPACITY : Nat := 4080

/-- Width of the per-page journal counter prepended to each plaintext page.
Modelled from the spec via `SMALL_CAPACITY = VPAGE_SIZE - journal width`. -/
def JOURNAL_SIZE : Nat := VPAGE_SIZE - SMALL_CAPACITY

/-- Number of key descriptors per virtual page.  Modelled from the spec:
`DK_PER_VPAGE = 32`. -/
def DK_PER_VPAGE : Nat := 32

/-- Virtual-address stride of one dictionary.  Modelled from the spec
(implementation-fixed); the value mirrors the repository's constant, which
is also equal to `SMALL_POOL_STRIDE`. -/
def DICT_VSIZE : Nat := 0xFE0000

/-- Virtual-address stride of one dictionary's small-pool region.  Modelled
from the spec; equal to `DICT_VSIZE` in the repository. -/
def SMALL_POOL_STRIDE : Nat := DICT_VSIZE

/-- Base virtual address of the small-pool region.  Modelled from the spec
(disjoint virtual-address ranges); value mirrors the repository. -/
def SMALL_POOL_START : Nat := 0x3F80000000

/-- Base virtual address of the large-pool region.  Modelled from the spec;
value mirrors the repository. -/
def LARGE_POOL_START : Nat := 0xFE0000000000

/-- End of the small-pool address region, used by `key_update` to classify a
key by its `start` address.  Modelled from the spec: the small pool and the
large pool are disjoint address ranges, so the small pool ends no later than
`LARGE_POOL_START`. -/
def SMALL_POOL_END : Nat := LARGE_POOL_START

/-- Maximum number of key descriptors of one dictionary.  Modelled from the
spec (implementation-fixed cap); the chosen value fills the dictionary's
descriptor area: `DICT_VSIZE / VPAGE_SIZE * DK_PER_VPAGE` slots. -/
def KEY_MAXCOUNT : Nat := DICT_VSIZE / VPAGE_SIZE * DK_PER_VPAGE

/-- Physical page size (used by the paranoid erase path). -/
def PAGE_SIZE : Nat := 4096

/-- The `u16` modulus, for the checked small-pool `avail` arithmetic. -/
def U16_MOD : Nat := 65536

/-- The `PageAlignedVa` conversion: round up to the next virtual-page
multiple (`PageAlignedVa::from` on a byte count). -/
def pageAlignedVa (n : Nat) : Nat := ((n + VPAGE_SIZE - 1) / VPAGE_SIZE) * VPAGE_SIZE

/-- Key flags of a key descriptor (`KeyFlags` bitfield: bit 0 `valid`,
bit 1 `unresolved`). -/
structure KeyFlags where
  valid : Bool
  unresolved : Bool
  deriving Repr, DecidableEq

/-- Cached small-key payload (`KeySmallData`). -/
structure KeySmallData where
  clean : Bool
  data : List Nat
  deriving Repr, DecidableEq

/-- RAM descriptor of one key (`KeyCacheEntry`).  `data = none` models both
a large key (no caching implemented) and a small key whose data page was
unreadable; `data = some d` models `KeyCacheData::Small(d)`. -/
structure KeyCacheEntry where
  start : Nat
  len : Nat
  reserved : Nat
  flags : KeyFlags
  age : Nat
  descriptor_index : Nat
  clean : Bool
  data : Option KeySmallData
  deriving Repr, DecidableEq

/-- One small-pool slot (`KeySmallPool`). -/
structure KeySmallPool where
  contents : List String
  avail : Nat
  clean : Bool
  deriving Repr, DecidableEq

/-- Construction of a blank small-pool slot.  Modelled from the spec:
`KeySmallPool::new` is declared outside the provided source file; a blank
slot has no contents and the full `SMALL_CAPACITY` bytes available. -/
def KeySmallPool.new : KeySmallPool :=
  { contents := [], avail := SMALL_CAPACITY, clean := true }

/-- A run of free key-descriptor indices (`FreeKeyRange`): `start` is free
and so are the `run` indices after it. -/
structure FreeKeyRange where
  start : Nat
  run : Nat
  deriving Repr, DecidableEq

/-- Classification of an index against a `FreeKeyRange`
(`FreeKeyCases`). -/
inductive FreeKeyCases where
  | LeftAdjacent
  | RightAdjacent
  | Within
  | LessThan
  | GreaterThan
  deriving Repr, DecidableEq

/-- Transcription of `FreeKeyRange::compare_to`.  The `u32` subtractions
`self.start - 1` are guarded by `self.start > 1` resp. `self.start > 0`, so
`Nat` subtraction is exact here. -/
def FreeKeyRange.compare_to (self : FreeKeyRange) (index : Nat) : FreeKeyCases :=
  if self.start > 1 ∧ index < self.start - 1 then .LessThan
  else if self.start > 0 ∧ index = self.start - 1 then .LeftAdjacent
  else if index ≥ self.start ∧ index ≤ self.start + self.run then .Within
  else if index = self.start + self.run + 1 then .RightAdjacent
  else .GreaterThan

/-- On-disk dictionary header (`Dictionary`), as consumed by
`DictCacheEntry::new`.  The fixed-width name buffer is modelled as a
`String`. -/
structure Dictionary where
  valid : Bool
  age : Nat
  num_keys : Nat
  free_key_index : Nat
  name : String
  deriving Repr, DecidableEq

/-- The typed content of one on-disk key descriptor (`KeyDescriptor`),
after the byte-level deserialization that `fill` performs with `DK_STRIDE`
slices; the C-string name is modelled as a `String` (`cstr_to_string`). -/
structure KeyDescriptor where
  start : Nat
  len : Nat
  reserved : Nat
  flags : KeyFlags
  age : Nat
  name : String
  deriving Repr, DecidableEq

/-- An invalid all-zero descriptor, the `KeyDescriptor::default()` image of
never-written descriptor bytes. -/
def KeyDescriptor.default : KeyDescriptor :=
  { start := 0, len := 0, reserved := 0,
    flags := { valid := false, unresolved := false }, age := 0, name := "" }

/-- The hardware abstraction (`PddbOs`) together with the portion of the
disk this dictionary can observe, with the AEAD layer abstracted away:
pages are kept in plaintext.
`descPages p = some f` means the descriptor virtual page `p` of this
dictionary decrypts correctly and slot `s` of it deserializes to `f s`;
`descPages p = none` models an unallocated or undecryptable page.
`dataPages` maps a physical page number to its plaintext (journal prefix
included), an absent entry modelling `data_decrypt_page` failure; the
paranoid erase path (`trng_slice` + `patch_data`) overwrites a physical
page with CSPRNG bytes, after which its AEAD tag no longer verifies, so it
is modelled by dropping the page's entry.  `freePool` is the fastspace
allocator supply (`try_fast_space_alloc` pops its head,
`fast_space_free` pushes). -/
structure Hw where
  descPages : Nat → Option (Nat → KeyDescriptor)
  dataPages : List (Nat × List Nat)
  freePool : List Nat

/-- The virtual-to-physical map (`HashMap<VirtAddr, PhysPage>`), as an
association list from virtual address to physical page number. -/
def V2P : Type := List (Nat × Nat)

/-- Lookup in an association list (`HashMap::get`). -/
def alGet {α : Type} (m : List (Nat × α)) (k : Nat) : Option α :=
  (m.find? (fun e => e.fst = k)).map (·.snd)

/-- Insert-or-replace in an association list (`HashMap::insert`): replace
the entry in place when the key is present, append otherwise. -/
def alPut {α : Type} (m : List (Nat × α)) (k : Nat) (v : α) : List (Nat × α) :=
  match m with
  | [] => [(k, v)]
  | e :: rest => if e.fst = k then (k, v) :: rest else e :: alPut rest k v

/-- Removal from an association list, returning the removed value
(`HashMap::remove`). -/
def alRemove {α : Type} (m : List (Nat × α)) (k : Nat) :
    Option α × List (Nat × α) :=
  (alGet m k, m.filter (fun e => ¬ e.fst = k))

/-- Lookup in the string-keyed key map (`HashMap<String, KeyCacheEntry>`). -/
def kmGet (m : List (String × KeyCacheEntry)) (k : String) : Option KeyCacheEntry :=
  (m.find? (fun e => e.fst = k)).map (·.snd)

/-- Insert-or-replace in the string-keyed key map: replace the entry in
place when the key is present, append otherwise. -/
def kmPut (m : List (String × KeyCacheEntry)) (k : String) (v : KeyCacheEntry) :
    List (String × KeyCacheEntry) :=
  match m with
  | [] => [(k, v)]
  | e :: rest => if e.fst = k then (k, v) :: rest else e :: kmPut rest k v

/-- RAM copy of one dictionary (`DictCacheEntry`).  The two
`BinaryHeap`s are modelled as canonical lists representing the heap's
multiset: `free_keys` is kept sorted by ascending `start` (Rust's reversed
`Ord` makes `pop` return the minimal `start`, and `into_sorted_vec` is then
the reverse of this list); `small_pool_free` holds `(avail, index)` pairs
and its `pop` takes the lexicographic maximum, the spec's max-heap keyed by
`(avail, slot_index)`. -/
structure DictCacheEntry where
  index : Nat
  keys : List (String × KeyCacheEntry)
  key_count : Nat
  free_keys : List FreeKeyRange
  last_disk_key_index : Nat
  clean : Bool
  age : Nat
  flags_valid : Bool
  small_pool : List KeySmallPool
  small_pool_free : List (Nat × Nat)
  aad : List Nat

/-- Transcription of `DictCacheEntry::new`. -/
def DictCacheEntry.new (dict : Dictionary) (index : Nat) (aad : List Nat) :
    DictCacheEntry :=
  { index := index
    keys := []
    key_count := dict.num_keys
    free_keys := [{ start := dict.free_key_index, run := KEY_MAXCOUNT - 1 }]
    last_disk_key_index := dict.free_key_index
    clean := true
    age := dict.age
    flags_valid := dict.valid
    small_pool := []
    small_pool_free := []
    aad := aad }

/-- The whole mutable state a `DictCacheEntry` call touches: the hardware,
the basis's V2P map, and the cache itself. -/
structure Sys where
  hw : Hw
  v2p : V2P
  dce : DictCacheEntry

/-- Outcome of an operation: `ok` and `error` carry the post-state (a Rust
`Err` return leaves the mutations made so far in `&mut self`), `panic`
aborts the process and carries no state. -/
inductive Res (α : Type) where
  | ok : Sys → α → Res α
  | error : Sys → String → Res α
  | panic : String → Res α

/-- Whether an outcome is an `Err` return. -/
def Res.isError {α : Type} : Res α → Bool
  | .error _ _ => true
  | _ => false

/-- Whether an outcome is a panic. -/
def Res.isPanic {α : Type} : Res α → Bool
  | .panic _ => true
  | _ => false

/-- The post-state of an outcome, when the process survived. -/
def Res.state {α : Type} : Res α → Option Sys
  | .ok s _ => some s
  | .error s _ => some s
  | .panic _ => none

/-- A list of `n` zero bytes. -/
def zeros (n : Nat) : List Nat := List.replicate n 0

/-- Saturating `u32` increment (`age.saturating_add(1)`). -/
def satAdd1 (n : Nat) : Nat := min (n + 1) (2 ^ 32 - 1)

/-- Insertion into the canonical (ascending-by-`start`) representation of
the `BinaryHeap<FreeKeyRange>` multiset (`BinaryHeap::push`). -/
def heapInsert (h : List FreeKeyRange) (r : FreeKeyRange) : List FreeKeyRange :=
  match h with
  | [] => [r]
  | x :: xs => if r.start ≤ x.start then r :: x :: xs else x :: heapInsert xs r

/-- Lexicographic maximum of two `(avail, index)` pairs, the ordering of the
`small_pool_free` max-heap.  Modelled from the spec: the heap is keyed by
`(avail, slot_index)` (the `KeySmallPoolOrd` type lives outside the provided
source file). -/
def lexMax (a b : Nat × Nat) : Nat × Nat :=
  if b.1 < a.1 ∨ (a.1 = b.1 ∧ b.2 ≤ a.2) then a else b

/-- Pop of the `small_pool_free` max-heap (`BinaryHeap::pop`): removes and
returns the lexicographically largest `(avail, index)` pair. -/
def poolFreePop (h : List (Nat × Nat)) : Option ((Nat × Nat) × List (Nat × Nat)) :=
  match h with
  | [] => none
  | x :: xs =>
      let m := xs.foldl lexMax x
      some (m, (x :: xs).erase m)

/-- Transcription of `DictCacheEntry::rebuild_free_pool`: clear
`small_pool_free` and re-push one `(avail, index)` entry per slot. -/
def rebuild_free_pool (st : DictCacheEntry) : DictCacheEntry :=
  { st with small_pool_free := st.small_pool.enum.map (fun e => (e.2.avail, e.1)) }

/-- Rust `Vec::swap_remove(i)`: replace element `i` with the last element
and pop the vector. -/
def swapRemove (l : List String) (i : Nat) : List String :=
  (l.set i (l.getLastD "")).dropLast

/-- Grow the small pool with blank entries until it has length at least
`n` (the `while self.small_pool.len() < pool_index + 1` loop of
`try_fill_small_key`). -/
def growPool (pool : List KeySmallPool) (n : Nat) : List KeySmallPool :=
  pool ++ List.replicate (n - pool.length) KeySmallPool.new

/-- `n ≤ l.length`, computed by forcing only the first `n` cells of `l`
(so that bound checks on page-sized buffers stay evaluable; equal to
`n ≤ l.length` by `lenAtLeast_iff` below). -/
def lenAtLeast : List Nat → Nat → Bool
  | _, 0 => true
  | [], _ + 1 => false
  | _ :: l, n + 1 => lenAtLeast l n

/-- `lenAtLeast` decides `n ≤ l.length`. -/
theorem lenAtLeast_iff : ∀ (l : List Nat) (n : Nat),
    lenAtLeast l n = true ↔ n ≤ l.length := by
  intro l
  induction l with
  | nil =>
      intro n
      cases n with
      | zero => simp [lenAtLeast]
      | succ m => simp [lenAtLeast]
  | cons a l ih =>
      intro n
      cases n with
      | zero => simp [lenAtLeast]
      | succ m =>
          rw [show lenAtLeast (a :: l) (m + 1) = lenAtLeast l m from rfl, ih m]
          simp [Nat.succ_le_succ_iff]

/-- Rust slice `l[a..b]`, panicking (modelled as `Except.error`) when the
range is out of bounds. -/
def sliceChk (l : List Nat) (a b : Nat) : Except String (List Nat) :=
  if a ≤ b ∧ lenAtLeast l b = true then .ok ((l.drop a).take (b - a))
  else .error "slice index out of range"

/-- Overlay `src` on `dst` starting at `pos`, copying
`min (src.length) (dst.length - pos)` bytes: the effect of Rust
`for (&s, d) in src.iter().zip(dst[pos..].iter_mut())`.  The caller
guarantees `pos ≤ dst.length` (the slice would panic otherwise). -/
def overlay (dst : List Nat) (pos : Nat) (src : List Nat) : List Nat :=
  dst.take pos ++ src.take (dst.length - pos) ++ dst.drop (pos + src.length)

/-- Rust `(a..b).step_by(s)` as a list. -/
def rangeStep (a b s : Nat) : List Nat :=
  (List.range ((b - a + s - 1) / s)).map (fun i => a + i * s)

/-- Read the plaintext of the data page mapped at virtual address `vaddr`:
`v2p_map.get` followed by `data_decrypt_page` (the `PlaintextCache` layer
in front of this read is a pure cache and is modelled away; see the
`PlaintextCache` theorems below for its correctness). -/
def readDataPage (hw : Hw) (v2p : V2P) (vaddr : Nat) : Option (List Nat) :=
  match alGet v2p vaddr with
  | some pp => alGet hw.dataPages pp
  | none => none

/-- Transcription of `small_storage_index_from_key`. -/
def small_storage_index_from_key (kcache : KeyCacheEntry) (dict_index : Nat) :
    Option Nat :=
  let storage_base := dict_index * SMALL_POOL_STRIDE + SMALL_POOL_START
  let storage_end := storage_base + SMALL_POOL_STRIDE
  if storage_base ≤ kcache.start ∧ kcache.start + kcache.reserved < storage_end then
    some ((kcache.start - storage_base) / SMALL_CAPACITY)
  else
    none

/-- Virtual pages belonging to a large key.  Modelled from the spec:
`KeyCacheEntry::large_pool_vpages` is declared outside the provided source
file; `key_remove` iterates the key's virtual pages, i.e. the page-aligned
addresses covering `[start, start + reserved)`. -/
def large_pool_vpages (k : KeyCacheEntry) : List Nat :=
  (List.range ((k.start % VPAGE_SIZE + k.reserved + VPAGE_SIZE - 1) / VPAGE_SIZE)).map
    (fun i => k.start / VPAGE_SIZE * VPAGE_SIZE + i * VPAGE_SIZE)

/-- Transcription of `DictCacheEntry::get_free_key_index`.  `BinaryHeap::pop`
returns the range with minimal `start` (the reversed `Ord`), which is the
head of the canonical list; the `NonZeroU32::new` at the end makes a popped
index `0` come back as `None`. -/
def get_free_key_index (st : DictCacheEntry) : Option Nat × DictCacheEntry :=
  match st.free_keys with
  | [] => (none, st)
  | free_key :: rest =>
      let index := free_key.start
      let fks :=
        if free_key.run > 0 then heapInsert rest { start := index + 1, run := free_key.run - 1 }
        else rest
      let ldki :=
        if index > st.last_disk_key_index then index + 1 else st.last_disk_key_index
      ((if index = 0 then none else some index),
       { st with free_keys := fks, last_disk_key_index := ldki })

/-- The loop of `put_free_key_index` over `free_key_vec` (the heap's
`into_sorted_vec`, which under the reversed `Ord` is sorted by descending
`start`).  Transcribed exactly as written, including the comparison of each
range against the loop index `i` (not against the freed `index`) and the
early `break` in the `LessThan` arm.  Explicit recursion fuel (first
argument): the loop advances `i` by one per iteration, so any fuel
exceeding `vec.length - i` computes the source's result and the
fuel-exhaustion branch (which mirrors the loop's normal exit) is never
taken from the entry point below. -/
def putFreeGo (vec : List FreeKeyRange) (index : Nat) :
    Nat → Nat → Bool → List FreeKeyRange → Except String (List FreeKeyRange)
  | 0, _, _, acc => .ok acc
  | fuel + 1, i, skip, acc =>
    if h : i < vec.length then
      if skip then putFreeGo vec index fuel (i + 1) false acc
      else
        match (vec.get ⟨i, h⟩).compare_to i with
        | .LessThan => .ok (heapInsert acc { start := index, run := 0 })
        | .LeftAdjacent =>
            putFreeGo vec index fuel (i + 1) false
              (heapInsert acc { start := index, run := (vec.get ⟨i, h⟩).run + 1 })
        | .Within => .error "Double-free error in free_keys()"
        | .RightAdjacent =>
            if h2 : i + 1 < vec.length then
              if (vec.get ⟨i + 1, h2⟩).compare_to i = .LeftAdjacent then
                putFreeGo vec index fuel (i + 1) true
                  (heapInsert acc
                    { start := (vec.get ⟨i, h⟩).start,
                      run := (vec.get ⟨i, h⟩).run + (vec.get ⟨i + 1, h2⟩).run + 2 })
              else
                putFreeGo vec index fuel (i + 1) false acc
            else
              putFreeGo vec index fuel (i + 1) false
                (heapInsert acc
                  { start := (vec.get ⟨i, h⟩).start, run := (vec.get ⟨i, h⟩).run + 1 })
        | .GreaterThan =>
            putFreeGo vec index fuel (i + 1) false (heapInsert acc (vec.get ⟨i, h⟩))
    else .ok acc

/-- Transcription of `DictCacheEntry::put_free_key_index`: drain the heap
into its sorted vector and walk it, re-pushing ranges into the emptied
heap. -/
def put_free_key_index (st : DictCacheEntry) (index : Nat) :
    Except String DictCacheEntry :=
  match putFreeGo st.free_keys.reverse index (st.free_keys.length + 1) 0 false [] with
  | .ok h => .ok { st with free_keys := h }
  | .error e => .error e

/-- Transcription of `DictCacheEntry::try_fill_small_key`: bookkeep a small
key loaded from disk into its small-pool slot and pre-cache its data.
Assertion failures and out-of-range slices are `Except.error` (panics).
If the data page is unreadable the key is recorded with `data = none` and
an error is logged (tolerated condition). -/
def try_fill_small_key (hw : Hw) (v2p : V2P) (st : DictCacheEntry)
    (kcache : KeyCacheEntry) (key_name : String) :
    Except String (DictCacheEntry × KeyCacheEntry) :=
  match small_storage_index_from_key kcache st.index with
  | none => .ok (st, kcache)
  | some pool_index =>
    let pool := growPool st.small_pool (pool_index + 1)
    let ksp := pool.getD pool_index KeySmallPool.new
    let ksp := { ksp with contents := ksp.contents ++ [key_name] }
    if ¬ (kcache.len ≤ kcache.reserved) then
      .error "Reserved amount is less than length, this is an error!"
    else if ¬ (kcache.reserved ≤ VPAGE_SIZE) then
      .error "Reserved amount is not appropriate for the small pool."
    else if ¬ (kcache.reserved ≤ ksp.avail) then
      .error "Total amount allocated to a small pool chunk is incorrect."
    else
      let ksp := { ksp with avail := ksp.avail - kcache.reserved }
      let pool := pool.set pool_index ksp
      let st := { st with small_pool := pool }
      let data_vaddr := kcache.start / VPAGE_SIZE * VPAGE_SIZE
      match readDataPage hw v2p data_vaddr with
      | some page =>
          let start_offset := JOURNAL_SIZE + kcache.start % VPAGE_SIZE
          match sliceChk page start_offset (start_offset + kcache.len) with
          | .ok bytes =>
              .ok (st, { kcache with data := some { clean := true, data := bytes } })
          | .error e => .error e
      | none => .ok (st, kcache)

/-- The scan loop of `DictCacheEntry::ensure_key_entry`, searching disk
descriptors for `name` while `try_entry < KEY_MAXCOUNT`, fewer than
`key_count` valid entries have been seen, and
`try_entry ≤ last_disk_key_index`.  An unreadable descriptor page skips
forward by `DK_PER_VPAGE`.  The fuel strictly dominates the number of loop
iterations (each iteration advances `try_entry` by at least one and the
loop stops at `KEY_MAXCOUNT`). -/
def ensureScan (hw : Hw) (v2p : V2P) (name : String) :
    Nat → DictCacheEntry → Nat → Nat → Except String (DictCacheEntry × Bool)
  | 0, st, _, _ => .ok (st, false)
  | fuel + 1, st, try_entry, seen =>
    if try_entry < KEY_MAXCOUNT ∧ seen < st.key_count ∧
        try_entry ≤ st.last_disk_key_index then
      match hw.descPages (try_entry / DK_PER_VPAGE) with
      | none => ensureScan hw v2p name fuel st (try_entry + DK_PER_VPAGE) seen
      | some pageF =>
          let keydesc := pageF (try_entry % DK_PER_VPAGE)
          if keydesc.flags.valid then
            if keydesc.name = name then
              let kcache : KeyCacheEntry :=
                { start := keydesc.start, len := keydesc.len,
                  reserved := keydesc.reserved, flags := keydesc.flags,
                  age := keydesc.age, descriptor_index := try_entry,
                  clean := true, data := none }
              match try_fill_small_key hw v2p st kcache name with
              | .ok (st2, kc2) =>
                  .ok ({ st2 with keys := kmPut st2.keys name kc2 }, true)
              | .error e => .error e
            else
              ensureScan hw v2p name fuel st (try_entry + 1) (seen + 1)
          else
            ensureScan hw v2p name fuel st (try_entry + 1) seen
    else
      .ok (st, false)

/-- Transcription of `DictCacheEntry::ensure_key_entry`: a cache hit
returns the cached entry's `valid` flag (a tombstone reports `false`);
otherwise the disk is scanned. -/
def ensure_key_entry (hw : Hw) (v2p : V2P) (st : DictCacheEntry) (name : String) :
    Except String (DictCacheEntry × Bool) :=
  match kmGet st.keys name with
  | some k => .ok (st, k.flags.valid)
  | none => ensureScan hw v2p name (KEY_MAXCOUNT + DK_PER_VPAGE) st 1 0

/-- The scan loop of `DictCacheEntry::fill`: walk descriptors while
`try_entry < KEY_MAXCOUNT` and fewer than `key_count` valid entries have
been seen; valid descriptors not yet cached are inserted (small keys also
bookkeeping their slot and pre-caching data); a descriptor whose extent
tops `alloc_top` raises it.  Returns the state, the final `try_entry`, and
`alloc_top`. -/
def fillScan (hw : Hw) (v2p : V2P) :
    Nat → DictCacheEntry → Nat → Nat → Nat →
    Except String (DictCacheEntry × Nat × Nat)
  | 0, st, try_entry, _, alloc_top => .ok (st, try_entry, alloc_top)
  | fuel + 1, st, try_entry, seen, alloc_top =>
    if try_entry < KEY_MAXCOUNT ∧ seen < st.key_count then
      match hw.descPages (try_entry / DK_PER_VPAGE) with
      | none => fillScan hw v2p fuel st (try_entry + DK_PER_VPAGE) seen alloc_top
      | some pageF =>
          let keydesc := pageF (try_entry % DK_PER_VPAGE)
          if keydesc.flags.valid then
            let kcache : KeyCacheEntry :=
              { start := keydesc.start, len := keydesc.len,
                reserved := keydesc.reserved, flags := keydesc.flags,
                age := keydesc.age, descriptor_index := try_entry,
                clean := true, data := none }
            if ¬ (kmGet st.keys keydesc.name).isSome then
              if keydesc.start + keydesc.reserved > alloc_top then
                fillScan hw v2p fuel
                  { st with keys := kmPut st.keys keydesc.name kcache }
                  (try_entry + 1) (seen + 1) (keydesc.start + keydesc.reserved)
              else
                match try_fill_small_key hw v2p st kcache keydesc.name with
                | .ok (st2, kc2) =>
                    fillScan hw v2p fuel
                      { st2 with keys := kmPut st2.keys keydesc.name kc2 }
                      (try_entry + 1) (seen + 1) alloc_top
                | .error e => .error e
            else
              fillScan hw v2p fuel st (try_entry + 1) (seen + 1) alloc_top
          else
            fillScan hw v2p fuel st (try_entry + 1) seen alloc_top
    else
      .ok (st, try_entry, alloc_top)

/-- Transcription of `DictCacheEntry::fill`: scan the disk descriptors,
then record `last_disk_key_index`, rebuild the small-pool free heap, and
return the observed `alloc_top` (initially `LARGE_POOL_START`). -/
def fill (hw : Hw) (v2p : V2P) (st : DictCacheEntry) :
    Except String (DictCacheEntry × Nat) :=
  match fillScan hw v2p (KEY_MAXCOUNT + DK_PER_VPAGE) st 1 0 LARGE_POOL_START with
  | .ok (st2, fin, alloc_top) =>
      .ok (rebuild_free_pool { st2 with last_disk_key_index := fin }, alloc_top)
  | .error e => .error e

/-- Transcription of `DictCacheEntry::key_list`: ensure the cache is
populated (via `fill` when `keys.len() < key_count`) and return the list of
cached key names (the caller merges them into its set). -/
def key_list (hw : Hw) (v2p : V2P) (st : DictCacheEntry) :
    Except String (DictCacheEntry × List String) :=
  if st.keys.length < st.key_count then
    match fill hw v2p st with
    | .ok (st2, _) => .ok (st2, st2.keys.map (·.fst))
    | .error e => .error e
  else
    .ok (st, st.keys.map (·.fst))

/-- Remove large-pool pages from the V2P map and return them to fastspace;
in paranoid mode each page is first overwritten with CSPRNG noise
(modelled by dropping its plaintext).  This is the page loop of
`key_remove`'s large-pool arm, also reused (with `paranoid = false`) by the
truncate arm of `key_update`. -/
def freePages (hw : Hw) (v2p : V2P) (paranoid : Bool) (vpages : List Nat) :
    Hw × V2P :=
  vpages.foldl
    (fun acc vpage =>
      match alRemove acc.2 vpage with
      | (some pp, v2p2) =>
          let hw1 := acc.1
          let hw2 :=
            if paranoid then
              { hw1 with dataPages := hw1.dataPages.filter (fun e => ¬ e.fst = pp) }
            else hw1
          ({ hw2 with freePool := pp :: hw2.freePool }, v2p2)
      | (none, v2p2) => (acc.1, v2p2))
    (hw, v2p)

/-- Transcription of `DictCacheEntry::key_remove`.  A missing name is a
no-op; a small key is swap-removed from its slot (crediting `avail`) and
tombstoned; a large key is tombstoned and its pages reclaimed; in both
cases the descriptor index is returned to the free-index heap.  All
failure modes of the source are panics (`Except.error`). -/
def key_remove (hw : Hw) (v2p : V2P) (st : DictCacheEntry) (name : String)
    (paranoid : Bool) : Except String (Hw × V2P × DictCacheEntry) :=
  match ensure_key_entry hw v2p st name with
  | .error e => .error e
  | .ok (st, _) =>
    match kmGet st.keys name with
    | none => .ok (hw, v2p, st)
    | some kcache =>
      let st := { st with clean := false }
      match small_storage_index_from_key kcache st.index with
      | some small_index =>
          if hlt : small_index < st.small_pool.length then
            let ksp := st.small_pool.get ⟨small_index, hlt⟩
            match ksp.contents.findIdx? (fun s => s = name) with
            | none => .error "Small pool did not contain the element we expected"
            | some pos =>
                let contents := swapRemove ksp.contents pos
                if ¬ (kcache.reserved ≤ SMALL_CAPACITY) then
                  .error "error in small key entry size"
                else
                  let avail := ksp.avail + kcache.reserved
                  if ¬ (avail ≤ SMALL_CAPACITY) then
                    .error "bookkeeping error in small pool capacity"
                  else
                    let ksp2 : KeySmallPool :=
                      { contents := contents, avail := avail, clean := false }
                    let kcache2 :=
                      { kcache with
                        clean := false
                        age := satAdd1 kcache.age
                        flags := { kcache.flags with valid := false } }
                    let st2 :=
                      { st with
                        small_pool := st.small_pool.set small_index ksp2
                        keys := kmPut st.keys name kcache2 }
                    match put_free_key_index st2 kcache.descriptor_index with
                    | .ok st3 => .ok (hw, v2p, rebuild_free_pool st3)
                    | .error e => .error e
          else
            .error "index out of bounds"
      | none =>
          let kcache2 :=
            { kcache with
              clean := false
              age := satAdd1 kcache.age
              flags := { kcache.flags with valid := false } }
          let st2 := { st with keys := kmPut st.keys name kcache2 }
          let hv := freePages hw v2p paranoid (large_pool_vpages kcache)
          match put_free_key_index st2 kcache.descriptor_index with
          | .ok st3 => .ok (hv.1, hv.2, st3)
          | .error e => .error e

/-- The per-key packing loop of `sync_small_pool`: repack each key named in
the slot's `contents` back-to-back into a fresh page, rewriting its cached
descriptor (`start`, `age`, `clean`, `unresolved := false`,
`valid := true`) and marking its body clean.  A content name without a key
record, a missing small body, or an out-of-range copy window panics. -/
def syncContents (pool_vaddr : Nat) :
    List String → List Nat → Nat → List (String × KeyCacheEntry) →
    Except String (List Nat × Nat × List (String × KeyCacheEntry))
  | [], page, pool_offset, keys => .ok (page, pool_offset, keys)
  | key_name :: rest, page, pool_offset, keys =>
    match kmGet keys key_name with
    | none => .error "data record without index"
    | some kcache =>
      let kcache2 :=
        { kcache with
          start := pool_vaddr + pool_offset
          age := satAdd1 kcache.age
          clean := false
          flags := { valid := true, unresolved := false } }
      match kcache.data with
      | some d =>
          if lenAtLeast page (JOURNAL_SIZE + pool_offset + kcache2.reserved) = true then
            let window := d.data.take kcache2.reserved
            let page2 := page.take (JOURNAL_SIZE + pool_offset) ++ window ++
                         page.drop (JOURNAL_SIZE + pool_offset + window.length)
            syncContents pool_vaddr rest page2 (pool_offset + kcache2.reserved)
              (kmPut keys key_name
                { kcache2 with data := some { clean := true, data := d.data } })
          else
            .error "slice index out of range"
      | none => .error "Incorrect data cache type for small key entry."

/-- The per-slot loop of `sync_small_pool`: for each dirty slot, obtain (or
allocate from fastspace) its physical page, rebuild the page plaintext from
zero, commit it, and mark the slot clean. -/
def syncSlots (dict_index : Nat) :
    List KeySmallPool → Nat → Hw → V2P → List (String × KeyCacheEntry) →
    Except String (List KeySmallPool × Hw × V2P × List (String × KeyCacheEntry))
  | [], _, hw, v2p, keys => .ok ([], hw, v2p, keys)
  | entry :: rest, index, hw, v2p, keys =>
    if ¬ entry.clean then
      let pool_vaddr := dict_index * SMALL_POOL_STRIDE + SMALL_POOL_START +
                        index * SMALL_CAPACITY
      match (match alGet v2p pool_vaddr with
             | some pp => Except.ok (pp, hw, v2p)
             | none =>
                 match hw.freePool with
                 | [] => Except.error "No free space to allocate small key storage"
                 | pp :: ps =>
                     Except.ok (pp, { hw with freePool := ps },
                                alPut v2p pool_vaddr pp)) with
      | .error e => .error e
      | .ok (pp, hw2, v2p2) =>
          match syncContents pool_vaddr entry.contents
              (zeros (VPAGE_SIZE + JOURNAL_SIZE)) 0 keys with
          | .error e => .error e
          | .ok (page2, _, keys2) =>
              let hw3 := { hw2 with dataPages := alPut hw2.dataPages pp page2 }
              match syncSlots dict_index rest (index + 1) hw3 v2p2 keys2 with
              | .ok (rest2, hw4, v2p4, keys4) =>
                  .ok ({ entry with clean := true } :: rest2, hw4, v2p4, keys4)
              | .error e => .error e
    else
      match syncSlots dict_index rest (index + 1) hw v2p keys with
      | .ok (rest2, hw2, v2p2, keys2) => .ok (entry :: rest2, hw2, v2p2, keys2)
      | .error e => .error e

/-- Transcription of `DictCacheEntry::sync_small_pool`. -/
def sync_small_pool (hw : Hw) (v2p : V2P) (st : DictCacheEntry) :
    Except String (Hw × V2P × DictCacheEntry) :=
  match syncSlots st.index st.small_pool 0 hw v2p st.keys with
  | .ok (pool2, hw2, v2p2, keys2) =>
      .ok (hw2, v2p2, { st with small_pool := pool2, keys := keys2 })
  | .error e => .error e

/-- Transcription of `DictCacheEntry::sync_large_pool` (a no-op: large pool
caches are not implemented). -/
def sync_large_pool (st : DictCacheEntry) : DictCacheEntry := st

/-- Phase 1 of the large-key write path of `key_update`: when
`start + offset` is not page aligned, decrypt the partial leading page,
overlay the data prefix, and re-encrypt.  Returns the bytes written. -/
def unalignedHead (hw : Hw) (v2p : V2P) (start offset : Nat) (data : List Nat) :
    Except String (Hw × Nat) :=
  if (start + offset) % VPAGE_SIZE ≠ 0 then
    let start_vpage_addr := (start + offset) / VPAGE_SIZE * VPAGE_SIZE
    match alGet v2p start_vpage_addr with
    | none => .error "large key data allocation missing"
    | some pp =>
        match alGet hw.dataPages pp with
        | none => .error "Decryption auth error"
        | some pt =>
            if JOURNAL_SIZE + offset ≤ pt.length then
              let written := min data.length (pt.length - (JOURNAL_SIZE + offset))
              let pt2 := overlay pt (JOURNAL_SIZE + offset) data
              if written < data.length ∧
                  ¬ ((start + offset + written) % VPAGE_SIZE = 0) then
                .error "alignment algorithm failed"
              else
                .ok ({ hw with dataPages := alPut hw.dataPages pp pt2 }, written)
            else
              .error "slice index out of range"
  else
    .ok (hw, 0)

/-- Phase 2 of the large-key write path of `key_update`: whole pages are
blind-overwritten without decryption; a partial trailing page is decrypted,
overlaid and re-encrypted, or initialized from zeros when it has no
readable content.  The fuel strictly dominates the number of iterations on
well-formed pages. -/
def writeLoop (v2p : V2P) (start offset : Nat) (data : List Nat) :
    Nat → Hw → Nat → Except String (Hw × Nat)
  | 0, _, _ => .error "model fuel exhausted in large-pool write loop"
  | fuel + 1, hw, written =>
    if written < data.length then
      let vpage_addr := (start + written + offset) / VPAGE_SIZE * VPAGE_SIZE
      match alGet v2p vpage_addr with
      | none => .error "large key data allocation missing"
      | some pp =>
          if data.length - written ≥ VPAGE_SIZE then
            let blk := overlay (zeros (VPAGE_SIZE + JOURNAL_SIZE)) JOURNAL_SIZE
                         (data.drop written)
            writeLoop v2p start offset data fuel
              { hw with dataPages := alPut hw.dataPages pp blk }
              (written + VPAGE_SIZE)
          else
            match alGet hw.dataPages pp with
            | some pt =>
                if JOURNAL_SIZE ≤ pt.length then
                  let n := min (data.length - written) (pt.length - JOURNAL_SIZE)
                  let pages2 := alPut hw.dataPages pp (overlay pt JOURNAL_SIZE (data.drop written))
                  writeLoop v2p start offset data fuel { hw with dataPages := pages2 }
                    (written + n)
                else
                  .error "slice index out of range"
            | none =>
                let n := min (data.length - written) VPAGE_SIZE
                let pages2 := alPut hw.dataPages pp
                  (overlay (zeros (VPAGE_SIZE + JOURNAL_SIZE)) JOURNAL_SIZE (data.drop written))
                writeLoop v2p start offset data fuel { hw with dataPages := pages2 }
                  (written + n)
    else
      .ok (hw, written)

/-- The large-key in-place update arm of `key_update` (case A, large): age
and dirty the descriptor, run the three-phase write, and on `truncate`
release whole pages past the written end and shrink `reserved`. -/
def largeUpdate (hw : Hw) (v2p : V2P) (st : DictCacheEntry) (name : String)
    (kcache : KeyCacheEntry) (data : List Nat) (offset : Nat) (truncate : Bool) :
    Except String (Hw × V2P × DictCacheEntry) :=
  let kcache := { kcache with age := satAdd1 kcache.age, clean := false }
  match unalignedHead hw v2p kcache.start offset data with
  | .error e => .error e
  | .ok (hw, w0) =>
    match writeLoop v2p kcache.start offset data (data.length + 2 * VPAGE_SIZE) hw w0 with
    | .error e => .error e
    | .ok (hw, written) =>
      if ¬ (written = data.length) then
        .error "algorithm problem -- didnt write all the data we thought we would"
      else if truncate then
        let vpage_end_offset := pageAlignedVa (written + offset)
        if vpage_end_offset < kcache.start then
          .error "attempt to subtract with overflow"
        else if vpage_end_offset - kcache.start > kcache.reserved then
          let hv := freePages hw v2p false
            (rangeStep vpage_end_offset (kcache.start + kcache.reserved) VPAGE_SIZE)
          let kcache2 :=
            { kcache with reserved := vpage_end_offset - kcache.start, clean := false }
          .ok (hv.1, hv.2, { st with keys := kmPut st.keys name kcache2 })
        else
          .ok (hw, v2p, { st with keys := kmPut st.keys name kcache })
      else
        .ok (hw, v2p, { st with keys := kmPut st.keys name kcache })

/-- The small-key in-place update arm of `key_update` (case A, small): grow
the cached body with zeros up to `data.len() + offset`, overlay `data` at
`offset`, mark body and owning slot dirty.  The source does not update the
entry's `len` field here (see the C1/C6 results), and `truncate` is
ignored for small keys. -/
def smallUpdate (hw : Hw) (v2p : V2P) (st : DictCacheEntry) (name : String)
    (kcache : KeyCacheEntry) (data : List Nat) (offset : Nat) :
    Except String (Hw × V2P × DictCacheEntry) :=
  match kcache.data with
  | none =>
      .error "small pool should all have their data hot if the index entry is also in cache"
  | some cache_data =>
      let body0 := cache_data.data ++ zeros (data.length + offset - cache_data.data.length)
      let body := overlay body0 offset data
      let kcache2 := { kcache with data := some { clean := false, data := body } }
      let st := { st with keys := kmPut st.keys name kcache2 }
      match small_storage_index_from_key kcache2 st.index with
      | none => .error "index missing"
      | some pool_index =>
          if h : pool_index < st.small_pool.length then
            let ksp := st.small_pool.get ⟨pool_index, h⟩
            let pool2 := st.small_pool.set pool_index { ksp with clean := false }
            .ok (hw, v2p, { st with small_pool := pool2 })
          else
            .error "index out of bounds"

/-- The small-key creation arm of `key_update` (case C): pick the best-fit
slot from the `small_pool_free` max-heap (or append a new slot), debit its
`avail`, then allocate a descriptor index; when the free-index heap is
exhausted this returns the `Err` outcome after the slot has already been
mutated. -/
def smallCreateCore (hw : Hw) (v2p : V2P) (st : DictCacheEntry) (name : String)
    (data : List Nat) (offset : Nat) (alloc_hint : Option Nat)
    (large_alloc_ptr : Nat) : Res Nat :=
  match poolFreePop st.small_pool_free with
  | none => .panic "Free pool was allocated and rebuilt, but still empty."
  | some (pool_candidate, heap2) =>
    let st := { st with small_pool_free := heap2 }
    let reservation :=
      if alloc_hint.getD 0 > data.length + offset then alloc_hint.getD 0
      else data.length + offset
    let placed : Except String (DictCacheEntry × Nat) :=
      if pool_candidate.1 ≥ reservation then
        if h : pool_candidate.2 < st.small_pool.length then
          let ksp := st.small_pool.get ⟨pool_candidate.2, h⟩
          if reservation ≤ ksp.avail then
            let ksp2 : KeySmallPool :=
              { contents := ksp.contents ++ [name],
                avail := ksp.avail - reservation, clean := false }
            Except.ok
              ({ st with
                 small_pool := st.small_pool.set pool_candidate.2 ksp2
                 small_pool_free := (ksp2.avail, pool_candidate.2) :: st.small_pool_free },
               pool_candidate.2)
          else
            Except.error "attempt to subtract with overflow"
        else
          Except.error "index out of bounds"
      else
        let st := { st with small_pool_free := pool_candidate :: st.small_pool_free }
        if reservation ≤ SMALL_CAPACITY then
          let ksp : KeySmallPool :=
            { contents := [name], avail := SMALL_CAPACITY - reservation, clean := false }
          Except.ok
            ({ st with
               small_pool := st.small_pool ++ [ksp]
               small_pool_free := (ksp.avail, st.small_pool.length) :: st.small_pool_free },
             st.small_pool.length)
        else
          Except.error "attempt to subtract with overflow"
    match placed with
    | .error e => .panic e
    | .ok (st, index) =>
      let kf : KeyFlags := { valid := true, unresolved := true }
      let alloc_data := zeros offset ++ data
      match get_free_key_index st with
      | (none, st2) => .error ⟨hw, v2p, st2⟩ "Ran out of key indices in dictionary"
      | (some di, st2) =>
          let kcache : KeyCacheEntry :=
            { start := SMALL_POOL_START + st2.index * DICT_VSIZE +
                       index * SMALL_CAPACITY,
              len := data.length + offset, reserved := reservation, flags := kf,
              age := 0, descriptor_index := di, clean := false,
              data := some { clean := false, data := alloc_data } }
          .ok ⟨hw, v2p,
               { st2 with
                 keys := kmPut st2.keys name kcache
                 key_count := st2.key_count + 1 }⟩
            large_alloc_ptr

/-- The small-key creation arm of `key_update` (case C): after ensuring at
least one slot exists, `smallCreateCore` picks the best-fit slot from the
`small_pool_free` max-heap (or appends a new slot), debits its `avail`,
then allocates a descriptor index; when the free-index heap is exhausted
this returns the `Err` outcome after the slot has already been mutated. -/
def smallCreate (hw : Hw) (v2p : V2P) (st : DictCacheEntry) (name : String)
    (data : List Nat) (offset : Nat) (alloc_hint : Option Nat)
    (large_alloc_ptr : Nat) : Res Nat :=
  smallCreateCore hw v2p
    (if st.small_pool.length = 0 then
      rebuild_free_pool { st with small_pool := [KeySmallPool.new] }
     else st)
    name data offset alloc_hint large_alloc_ptr

/-- Allocation of the physical pages backing a new large key (case D):
`try_fast_space_alloc().expect("out of disk space")` for each page of the
extent, installing each into the V2P map.  Exhaustion is a panic, not an
error return. -/
def allocPages : List Nat → Hw → V2P → Except String (Hw × V2P)
  | [], hw, v2p => .ok (hw, v2p)
  | vpage :: rest, hw, v2p =>
      match hw.freePool with
      | [] => .error "out of disk space"
      | pp :: ps => allocPages rest { hw with freePool := ps } (alPut v2p vpage pp)

/-- Transcription of `DictCacheEntry::key_update`, with explicit recursion
fuel.  The source recursion has call depth at most three (an existing
oversized key is removed and re-created; a fresh large key allocates and
then recurses into the in-place write), so any fuel of at least three
computes the source's result; the fuel-exhaustion branch is unreachable
from the entry point below. -/
def key_update_go :
    Nat → Hw → V2P → DictCacheEntry → String → List Nat → Nat → Option Nat →
    Bool → Nat → Res Nat
  | 0, _, _, _, _, _, _, _, _, _ =>
      .panic "model recursion fuel exhausted (call depth is at most three)"
  | fuel + 1, hw, v2p, st, name, data, offset, alloc_hint, truncate,
      large_alloc_ptr =>
    let st := { st with age := satAdd1 st.age, clean := false }
    match ensure_key_entry hw v2p st name with
    | .error e => .panic e
    | .ok (st, found) =>
      if found then
        match kmGet st.keys name with
        | none => .panic "Entry was assured, but then not there!"
        | some kcache =>
          if kcache.reserved < data.length + offset then
            match key_remove hw v2p st name false with
            | .error e => .panic e
            | .ok (hw2, v2p2, st2) =>
                key_update_go fuel hw2 v2p2 st2 name data offset alloc_hint
                  truncate large_alloc_ptr
          else if kcache.start < SMALL_POOL_END then
            match smallUpdate hw v2p st name kcache data offset with
            | .ok (hw2, v2p2, st2) => .ok ⟨hw2, v2p2, st2⟩ large_alloc_ptr
            | .error e => .panic e
          else
            match kcache.data with
            | some _ => .panic "caching is not yet implemented for large data sets"
            | none =>
                match largeUpdate hw v2p st name kcache data offset truncate with
                | .ok (hw2, v2p2, st2) => .ok ⟨hw2, v2p2, st2⟩ large_alloc_ptr
                | .error e => .panic e
      else
        if data.length + offset < SMALL_CAPACITY ∧ alloc_hint.getD 0 < SMALL_CAPACITY then
          smallCreate hw v2p st name data offset alloc_hint large_alloc_ptr
        else
          let reservation :=
            pageAlignedVa
              (if alloc_hint.getD 0 > data.length + offset then alloc_hint.getD 0
               else data.length + offset)
          let kf : KeyFlags := { valid := true, unresolved := false }
          match get_free_key_index st with
          | (none, st2) =>
              .error ⟨hw, v2p, st2⟩ "Ran out of key indices in dictionary"
          | (some di, st2) =>
              let kcache : KeyCacheEntry :=
                { start := large_alloc_ptr, len := data.length + offset,
                  reserved := reservation, flags := kf, age := 0,
                  descriptor_index := di, clean := false, data := none }
              let st3 :=
                { st2 with
                  keys := kmPut st2.keys name kcache
                  key_count := st2.key_count + 1 }
              match allocPages
                  (rangeStep large_alloc_ptr (large_alloc_ptr + reservation) VPAGE_SIZE)
                  hw v2p with
              | .error e => .panic e
              | .ok (hw2, v2p2) =>
                  key_update_go fuel hw2 v2p2 st3 name data offset alloc_hint
                    truncate (large_alloc_ptr + reservation)

/-- Entry point of `key_update` (fuel larger than the maximal call
depth). -/
def key_update (hw : Hw) (v2p : V2P) (st : DictCacheEntry) (name : String)
    (data : List Nat) (offset : Nat) (alloc_hint : Option Nat) (truncate : Bool)
    (large_alloc_ptr : Nat) : Res Nat :=
  key_update_go 4 hw v2p st name data offset alloc_hint truncate large_alloc_ptr

/-- Transcription of `DictCacheEntry::key_erase`: `unimplemented!()`. -/
def key_erase (_name : String) : Res Unit := .panic "not implemented"

/-- Transcription of the `PlaintextCache` structure: a one-slot cache of
the most recently decrypted page (`data`) and the physical page it came
from (`tag`, compared by page number). -/
structure PlaintextCache where
  data : Option (List Nat)
  tag : Option Nat
  deriving Repr, DecidableEq

/-- The read-only environment a `PlaintextCache::fill` call sees: the
basis's V2P map and `hw.data_decrypt_page` for the fixed cipher and AAD of
the call. -/
structure FillEnv where
  v2p : Nat → Option Nat
  decrypt : Nat → Option (List Nat)

/-- Transcription of `PlaintextCache::fill`.  The returned flag records
whether a decryption (`data_decrypt_page`) was performed. -/
def PlaintextCache.fill (c : PlaintextCache) (env : FillEnv) (req_vaddr : Nat) :
    PlaintextCache × Bool :=
  match env.v2p req_vaddr with
  | some pp =>
      let fill_needed :=
        match c.tag with
        | some tag => if tag = pp then false else true
        | none => true
      if fill_needed then ({ data := env.decrypt pp, tag := some pp }, true)
      else (c, false)
  | none => ({ data := none, tag := none }, false)

/-- Fold a sequence of `fill` requests over an initially empty
`PlaintextCache`. -/
def runFills (reqs : List (FillEnv × Nat)) : PlaintextCache :=
  reqs.foldl (fun c r => (c.fill r.1 r.2).1) { data := none, tag := none }

/-- Modelled from the spec: the caller-driven descriptor-page sync
(`dict_sync`, which lives in the Basis layer, outside the provided source
file).  Every cached key descriptor is written to its slot
(`descriptor_index`) of the dictionary's descriptor area with its current
fields, tombstones included (a tombstone's `valid = false` removes the
record from disk); descriptor pages containing at least one cached key
become readable, other pages keep their previous content. -/
def descTableOf (keys : List (String × KeyCacheEntry))
    (prev : Nat → Option (Nat → KeyDescriptor)) :
    Nat → Option (Nat → KeyDescriptor) :=
  fun p =>
    let onPage := keys.filter (fun e => e.2.descriptor_index / DK_PER_VPAGE = p)
    if onPage.isEmpty then prev p
    else
      some (fun s =>
        match onPage.find? (fun e => e.2.descriptor_index % DK_PER_VPAGE = s) with
        | some e =>
            { start := e.2.start, len := e.2.len, reserved := e.2.reserved,
              flags := e.2.flags, age := e.2.age, name := e.1 }
        | none =>
            match prev p with
            | some f => f s
            | none => KeyDescriptor.default)

/-- Modelled from the spec: the full caller-driven sync tail.  After
`sync_small_pool`, the caller syncs the descriptor pages and the updated
dictionary header (`num_keys`, the high-water `free_key_index`) so that a
fresh `DictCacheEntry::new` + `fill` can reload the dictionary. -/
def dict_sync (hw : Hw) (st : DictCacheEntry) : Hw × Dictionary :=
  ({ hw with descPages := descTableOf st.keys hw.descPages },
   { valid := st.flags_valid, age := st.age, num_keys := st.key_count,
     free_key_index := st.last_disk_key_index, name := "" })

/-- One public operation on a `DictCacheEntry`, with its user-supplied
parameters. -/
inductive Op where
  | update (name : String) (data : List Nat) (offset : Nat)
      (alloc_hint : Option Nat) (truncate : Bool) (large_alloc_ptr : Nat)
  | remove (name : String) (paranoid : Bool)
  | syncSmall
  | syncLarge
  | fillOp
  | ensureOp (name : String)
  | keyListOp
  | eraseOp (name : String)

/-- Execution of one public operation on the full state. -/
def stepOp (s : Sys) (op : Op) : Res Unit :=
  match op with
  | .update name data offset hint trunc ptr =>
      match key_update s.hw s.v2p s.dce name data offset hint trunc ptr with
      | .ok s2 _ => .ok s2 ()
      | .error s2 e => .error s2 e
      | .panic e => .panic e
  | .remove name paranoid =>
      match key_remove s.hw s.v2p s.dce name paranoid with
      | .ok (hw, v2p, dce) => .ok ⟨hw, v2p, dce⟩ ()
      | .error e => .panic e
  | .syncSmall =>
      match sync_small_pool s.hw s.v2p s.dce with
      | .ok (hw, v2p, dce) => .ok ⟨hw, v2p, dce⟩ ()
      | .error e => .panic e
  | .syncLarge => .ok ⟨s.hw, s.v2p, sync_large_pool s.dce⟩ ()
  | .fillOp =>
      match fill s.hw s.v2p s.dce with
      | .ok (dce, _) => .ok ⟨s.hw, s.v2p, dce⟩ ()
      | .error e => .panic e
  | .ensureOp name =>
      match ensure_key_entry s.hw s.v2p s.dce name with
      | .ok (dce, _) => .ok ⟨s.hw, s.v2p, dce⟩ ()
      | .error e => .panic e
  | .keyListOp =>
      match key_list s.hw s.v2p s.dce with
      | .ok (dce, _) => .ok ⟨s.hw, s.v2p, dce⟩ ()
      | .error e => .panic e
  | .eraseOp _ => .panic "not implemented"

/-- Run a sequence of operations, keeping the state of a completed or
`Err`-returning call and aborting on panic. -/
def stepOkState (s : Sys) (op : Op) : Option Sys :=
  match stepOp s op with
  | .ok s2 _ => some s2
  | _ => none

/-- Capacity of one dictionary's small-pool region in slots. -/
def MAXSLOTS : Nat := SMALL_POOL_STRIDE / SMALL_CAPACITY

/-- The dictionary index keeps this dictionary's small-pool region inside
the small-pool address space (true of every real dictionary index; the
index is fixed at construction). -/
def INDEX_OK (index : Nat) : Prop :=
  (index + 1) * SMALL_POOL_STRIDE + SMALL_POOL_START ≤ SMALL_POOL_END

/-- Reachability by sequences of public operations every one of which
completed without panicking and without returning an error, starting from
a freshly constructed cache on a dictionary whose index is in range, and
along which the small pool never outgrows the dictionary's small-pool
region. -/
inductive ReachableOk : Sys → Prop where
  | init : ∀ (dict : Dictionary) (index : Nat) (aad : List Nat) (hw : Hw) (v2p : V2P),
      INDEX_OK index →
      ReachableOk ⟨hw, v2p, DictCacheEntry.new dict index aad⟩
  | step : ∀ (s s2 : Sys) (op : Op),
      ReachableOk s → stepOp s op = .ok s2 () →
      s2.dce.small_pool.length ≤ MAXSLOTS →
      ReachableOk s2

/-- Reachability by arbitrary sequences of public operations, keeping the
state of calls that return an error (the mutated `&mut self` survives a
Rust `Err` return).  This is the reading of reachability in the original
claim C8. -/
inductive ReachableAny : Sys → Prop where
  | init : ∀ (dict : Dictionary) (index : Nat) (aad : List Nat) (hw : Hw) (v2p : V2P),
      ReachableAny ⟨hw, v2p, DictCacheEntry.new dict index aad⟩
  | stepOk : ∀ (s s2 : Sys) (op : Op),
      ReachableAny s → stepOp s op = .ok s2 () → ReachableAny s2
  | stepErr : ∀ (s s2 : Sys) (op : Op) (e : String),
      ReachableAny s → stepOp s op = .error s2 e → ReachableAny s2

/-- Reserved bytes that the key map records for name `n` (0 when the name
has no record). -/
def reservedOf (keys : List (String × KeyCacheEntry)) (n : String) : Nat :=
  match kmGet keys n with
  | some k => k.reserved
  | none => 0

/-- Total reserved bytes of the keys a slot's `contents` names. -/
def slotSum (keys : List (String × KeyCacheEntry)) (l : List String) : Nat :=
  (l.map (reservedOf keys)).sum

/-- The small-pool accounting invariant of claim C8: every slot's resident
reservations and its `avail` add up to `SMALL_CAPACITY` (the spec defines
residence by the slot's `contents`). -/
def smallPoolInv (dce : DictCacheEntry) : Prop :=
  ∀ ksp ∈ dce.small_pool, slotSum dce.keys ksp.contents + ksp.avail = SMALL_CAPACITY

/-- Decidable checker for `smallPoolInv`. -/
def smallPoolInvB (dce : DictCacheEntry) : Bool :=
  dce.small_pool.all
    (fun ksp => decide (slotSum dce.keys ksp.contents + ksp.avail = SMALL_CAPACITY))

/-- Number of occurrences of name `n` across all slots' `contents`. -/
def occCount (pool : List KeySmallPool) (n : String) : Nat :=
  (pool.map (fun ksp => ksp.contents.count n)).sum

/-- Auxiliary invariant: every name a slot lists is backed by a valid key
record whose address arithmetic classifies it as a small key of this
dictionary. -/
def ContentsValid (dce : DictCacheEntry) : Prop :=
  ∀ ksp ∈ dce.small_pool, ∀ n ∈ ksp.contents,
    ∃ k, kmGet dce.keys n = some k ∧ k.flags.valid = true ∧
      (small_storage_index_from_key k dce.index).isSome = true

/-- Auxiliary invariant: no name is listed twice across the small pool. -/
def ContentsNodup (dce : DictCacheEntry) : Prop :=
  ∀ n, occCount dce.small_pool n ≤ 1

/-- The inductive invariant carried through the C8 preservation proof. -/
def DInv (dce : DictCacheEntry) : Prop :=
  smallPoolInv dce ∧ ContentsValid dce ∧ ContentsNodup dce ∧ INDEX_OK dce.index

/-- One `fill` call preserves the implication from a present page to a
present tag. -/
theorem fill_data_tag_step (c : PlaintextCache) (env : FillEnv) (v : Nat) :
    (c.fill env v).1.data.isSome = true → (c.fill env v).1.tag.isSome = true := by
  cases henv : env.v2p v with
  | none => simp [PlaintextCache.fill, henv]
  | some pp =>
      cases htag : c.tag with
      | none => simp [PlaintextCache.fill, henv, htag]
      | some t =>
          by_cases ht : t = pp
          · subst ht
            simp [PlaintextCache.fill, henv, htag]
          · simp [PlaintextCache.fill, henv, htag, ht]

/-- C9: `PlaintextCache.fill(req_vaddr)` decrypts exactly when the cached
tag is absent or differs from the physical page mapped at `req_vaddr`; with
no mapping it clears both fields; and a second `fill` of the same mapped
virtual page performs no decryption and leaves the cache unchanged, so two
consecutive fills decrypt at most once. -/
theorem c9_plaintext_cache_fill (c : PlaintextCache) (env : FillEnv) (req_vaddr : Nat) :
    (∀ pp, env.v2p req_vaddr = some pp →
      (((c.fill env req_vaddr).2 = true) ↔ (c.tag = none ∨ ¬ c.tag = some pp))) ∧
    (env.v2p req_vaddr = none →
      c.fill env req_vaddr = ({ data := none, tag := none }, false)) ∧
    ((env.v2p req_vaddr).isSome = true →
      ((c.fill env req_vaddr).1.fill env req_vaddr) = ((c.fill env req_vaddr).1, false)) := by
  refine ⟨?_, ?_, ?_⟩
  · intro pp hpp
    cases htag : c.tag with
    | none => simp [PlaintextCache.fill, hpp, htag]
    | some t =>
        by_cases ht : t = pp
        · subst ht
          simp [PlaintextCache.fill, hpp, htag]
        · simp [PlaintextCache.fill, hpp, htag, ht]
  · intro hpp
    simp [PlaintextCache.fill, hpp]
  · intro hpp
    obtain ⟨pp, hpp2⟩ := Option.isSome_iff_exists.mp hpp
    have h1 : (c.fill env req_vaddr).1.tag = some pp := by
      cases htag : c.tag with
      | none => simp [PlaintextCache.fill, hpp2, htag]
      | some t =>
          by_cases ht : t = pp
          · subst ht
            simp [PlaintextCache.fill, hpp2, htag]
          · simp [PlaintextCache.fill, hpp2, htag, ht]
    generalize hg : (c.fill env req_vaddr).1 = c1
    rw [hg] at h1
    simp [PlaintextCache.fill, hpp2, h1]

/-- Witness for C9 at a concrete cache, environment, and address. -/
theorem c9_plaintext_cache_fill_witness :
    ((({ data := none, tag := none } : PlaintextCache).fill
        { v2p := fun _ => some 5, decrypt := fun _ => some [1] } 7).2 = true) ∧
    (((({ data := none, tag := none } : PlaintextCache).fill
        { v2p := fun _ => some 5, decrypt := fun _ => some [1] } 7).1.fill
        { v2p := fun _ => some 5, decrypt := fun _ => some [1] } 7)
      = ((({ data := none, tag := none } : PlaintextCache).fill
        { v2p := fun _ => some 5, decrypt := fun _ => some [1] } 7).1, false)) := by
  constructor
  · exact ((c9_plaintext_cache_fill { data := none, tag := none }
      { v2p := fun _ => some 5, decrypt := fun _ => some [1] } 7).1 5 rfl).mpr (Or.inl rfl)
  · exact (c9_plaintext_cache_fill { data := none, tag := none }
      { v2p := fun _ => some 5, decrypt := fun _ => some [1] } 7).2.2 rfl

/-- C10: starting from the empty `PlaintextCache`, after any sequence of
`fill` calls a present `data` implies a present `tag`: the
data-present-tag-absent state is unreachable. -/
theorem c10_plaintext_cache_inv (reqs : List (FillEnv × Nat)) :
    (runFills reqs).data.isSome = true → (runFills reqs).tag.isSome = true := by
  unfold runFills
  have main : ∀ (l : List (FillEnv × Nat)) (c : PlaintextCache),
      (c.data.isSome = true → c.tag.isSome = true) →
      ((l.foldl (fun c r => (c.fill r.1 r.2).1) c).data.isSome = true →
       (l.foldl (fun c r => (c.fill r.1 r.2).1) c).tag.isSome = true) := by
    intro l
    induction l with
    | nil => intro c h; exact h
    | cons r rest ih =>
        intro c _h
        exact ih ((c.fill r.1 r.2).1) (fill_data_tag_step c r.1 r.2)
  exact main reqs { data := none, tag := none } (by intro h; simp at h)

/-- Witness for C10 at a concrete request sequence that makes `data`
present. -/
theorem c10_plaintext_cache_inv_witness :
    (runFills [({ v2p := fun _ => some 5, decrypt := fun _ => some [1] }, 7)]).tag.isSome
      = true :=
  c10_plaintext_cache_inv
    [({ v2p := fun _ => some 5, decrypt := fun _ => some [1] }, 7)] rfl

/-- A pristine dictionary header (`Dictionary::default()`). -/
def dictDefault : Dictionary :=
  { valid := true, age := 0, num_keys := 0, free_key_index := 1, name := "" }

/-- A hardware state with a blank disk and four free physical pages. -/
def hwBlank : Hw :=
  { descPages := fun _ => none, dataPages := [], freePool := [100, 101, 102, 103] }

/-- A freshly constructed cache for dictionary index 1 over the blank
disk. -/
def sysFresh : Sys := ⟨hwBlank, [], DictCacheEntry.new dictDefault 1 []⟩

/-- Whether the free-index heap covers index `i`. -/
def coversFree (h : List FreeKeyRange) (i : Nat) : Bool :=
  h.any (fun r => decide (r.start ≤ i ∧ i ≤ r.start + r.run))

/-- C3: `put_free_key_index(2)` on the sorted, disjoint heap consisting of
the single range `{start 5, run 0}` classifies that range against the loop
index 0 instead of against 2, lands in the `LessThan` arm, and replaces the
heap by the singleton `{2, 0}`: index 5 is no longer covered, although the
claim requires the result to cover exactly the old free set plus 2. -/
theorem c3_put_free_key_index_loses_range :
    ((put_free_key_index
        { DictCacheEntry.new dictDefault 1 [] with free_keys := [⟨5, 0⟩] } 2).toOption.map
      (fun st => st.free_keys)) = some [{ start := 2, run := 0 }] ∧
    coversFree [{ start := 2, run := 0 }] 5 = false ∧
    coversFree [{ start := 5, run := 0 }] 5 = true := by
  decide

/-- State after creating small key "k" = [0x11] with a four-byte
reservation in a fresh dictionary. -/
def kSys1 : Sys :=
  match key_update sysFresh.hw sysFresh.v2p sysFresh.dce "k" [0x11] 0 (some 4)
      false LARGE_POOL_START with
  | .ok s _ => s
  | _ => sysFresh

/-- The second update of key "k": two bytes at offset 0, within the
four-byte reservation. -/
def kRes2 : Res Nat :=
  key_update kSys1.hw kSys1.v2p kSys1.dce "k" [0x22, 0x33] 0 none false
    LARGE_POOL_START

/-- State after the second update of key "k". -/
def kSys2 : Sys :=
  match kRes2 with
  | .ok s _ => s
  | _ => sysFresh

/-- C6: the in-place small-key update succeeds, zero-extends and writes the
cached body (which becomes `[0x22, 0x33]`), marks the body and owning slot
dirty -- but leaves the entry's `len` field at its old value 1 instead of
setting it to `max(old len, data.len() + offset) = 2`: the source omits the
`len` update. -/
theorem c6_len_not_updated :
    kRes2.isError = false ∧ kRes2.isPanic = false ∧
    ((kmGet kSys2.dce.keys "k").map
        (fun k => (k.len, k.reserved, k.data.map (fun d => (d.data, d.clean)))))
      = some (1, 4, some ([0x22, 0x33], false)) ∧
    ¬ ((kmGet kSys2.dce.keys "k").map (fun k => k.len) = some 2) ∧
    kSys2.dce.small_pool.map (fun ksp => ksp.clean) = [false] := by
  decide

/-- State after `sync_small_pool` on the "k" scenario. -/
def kSys3 : Sys :=
  match sync_small_pool kSys2.hw kSys2.v2p kSys2.dce with
  | .ok (hw, v2p, dce) => ⟨hw, v2p, dce⟩
  | .error _ => kSys2

/-- Reload of the "k" dictionary: modelled descriptor sync, then a fresh
`DictCacheEntry::new` over the written-back header, then `fill`. -/
def kReload : Except String (DictCacheEntry × Nat) :=
  fill (dict_sync kSys3.hw kSys3.dce).1 kSys3.v2p
    (DictCacheEntry.new (dict_sync kSys3.hw kSys3.dce).2 1 [])

/-- C1: the round trip fails.  The last value written to key "k" was
`[0x22, 0x33]` (and that is what the cache body and the synced page hold),
but after a full sync cycle and a fresh `fill` the reloaded entry carries
`len = 1` and its body reads back as `[0x22]`, because the in-place update
never raised the descriptor's `len` field. -/
theorem c1_round_trip_fails :
    ((kmGet kSys2.dce.keys "k").map (fun k => k.data.map (fun d => d.data)))
      = some (some [0x22, 0x33]) ∧
    (kReload.toOption.map (fun r =>
        r.1.keys.map (fun e => (e.1, e.2.flags.valid, e.2.len,
          e.2.data.map (fun d => d.data)))))
      = some [("k", true, 1, some [0x22])] ∧
    ¬ ((kReload.toOption.map (fun r => r.1.keys.map (fun e =>
          e.2.data.map (fun d => d.data))))
        = some [some [0x22, 0x33]]) := by
  decide

/-- The error message of a panicking (`Except.error`) outcome. -/
def exErr {α : Type} : Except String α → Option String
  | .error e => some e
  | .ok _ => none

/-- State after the first (successful) removal of key "k". -/
def kSysRemoved : Sys :=
  match key_remove kSys1.hw kSys1.v2p kSys1.dce "k" false with
  | .ok (hw, v2p, dce) => ⟨hw, v2p, dce⟩
  | .error _ => kSys1

/-- C2 (code bug): the first `key_remove` of small key "k" succeeds and
tombstones the entry, but the second `key_remove` of the same name panics
at the expect on `ksp.contents.position(..)` -- the tombstone is still in
`keys` and still address-classified as small, yet its name is gone from the
slot's `contents`.  A name that was never inserted is, by contrast, a
genuine no-op that returns the state unchanged. -/
theorem c2_double_remove_panics :
    (key_remove kSys1.hw kSys1.v2p kSys1.dce "k" false).toOption.isSome = true ∧
    ((kmGet kSysRemoved.dce.keys "k").map (fun k => k.flags.valid)) = some false ∧
    exErr (key_remove kSysRemoved.hw kSysRemoved.v2p kSysRemoved.dce "k" false)
      = some "Small pool did not contain the element we expected" ∧
    key_remove sysFresh.hw sysFresh.v2p sysFresh.dce "ghost" false
      = Except.ok (sysFresh.hw, sysFresh.v2p, sysFresh.dce) := by
  refine ⟨by decide, by decide, by decide, rfl⟩

/-- Hardware with an unreadable disk and an exhausted fastspace pool. -/
def hwNoSpace : Hw := { descPages := fun _ => none, dataPages := [], freePool := [] }

/-- The large-key creation attempt of C4: one byte with
`alloc_hint = SMALL_CAPACITY` escalates to the large pool, and
`try_fast_space_alloc` finds the fastspace pool empty. -/
def bigRes : Res Nat :=
  key_update hwNoSpace [] (DictCacheEntry.new dictDefault 1 []) "big" [0xAA] 0
    (some SMALL_CAPACITY) false LARGE_POOL_START

/-- Counterexample to C4 as stated: when `try_fast_space_alloc` returns
`None` while reserving a page for the new large key's extent, the call does
not surface an error return at all -- it panics through
`.expect("out of disk space")`. -/
theorem c4_counterexample :
    bigRes = Res.panic "out of disk space" ∧ bigRes.isError = false := by
  constructor
  · rfl
  · rfl

/-- State after creating small key "a" in a fresh dictionary (descriptor
index 1 is allocated; the free heap becomes `{2, KEY_MAXCOUNT - 2}`). -/
def seqSys1 : Sys :=
  match key_update sysFresh.hw sysFresh.v2p sysFresh.dce "a" [0x11] 0 none false
      LARGE_POOL_START with
  | .ok s _ => s
  | _ => sysFresh

/-- State after removing "a".  `put_free_key_index(1)` hits the loop-index
bug of C3 and collapses the free heap to the singleton `{1, 0}`, leaking
the whole remaining index space. -/
def seqSys2 : Sys :=
  match key_remove seqSys1.hw seqSys1.v2p seqSys1.dce "a" false with
  | .ok (hw, v2p, dce) => ⟨hw, v2p, dce⟩
  | .error _ => seqSys1

/-- State after creating small key "b", which consumes the last remaining
free descriptor index: the free heap is now empty. -/
def seqSys3 : Sys :=
  match key_update seqSys2.hw seqSys2.v2p seqSys2.dce "b" [0x12] 0 none false
      LARGE_POOL_START with
  | .ok s _ => s
  | _ => seqSys2

/-- The attempt to create small key "c" with the free-index heap
exhausted. -/
def seqRes4 : Res Nat :=
  key_update seqSys3.hw seqSys3.v2p seqSys3.dce "c" [0x13] 0 none false
    LARGE_POOL_START

/-- The error state the failing call leaves behind. -/
def seqSys4 : Sys :=
  match seqRes4 with
  | .error s _ => s
  | _ => seqSys3

/-- Counterexample to C5 as stated: the exhausted-index `key_update` does
return the out-of-indices error, and it does leave `keys` and `key_count`
unchanged -- but the cache is not unchanged: before the call the single
small-pool slot held `(["b"], SMALL_CAPACITY - 1)`, and the error state
holds `(["b", "c"], SMALL_CAPACITY - 2)` with a dirtied slot and an updated
`small_pool_free`, because the slot is mutated before the descriptor index
is requested. -/
theorem c5_counterexample :
    seqRes4 = Res.error seqSys4 "Ran out of key indices in dictionary" ∧
    seqSys3.dce.small_pool.map (fun ksp => (ksp.contents, ksp.avail))
      = [(["b"], SMALL_CAPACITY - 1)] ∧
    seqSys4.dce.small_pool.map (fun ksp => (ksp.contents, ksp.avail))
      = [(["b", "c"], SMALL_CAPACITY - 2)] ∧
    seqSys4.dce.keys.map (fun e => e.1) = seqSys3.dce.keys.map (fun e => e.1) ∧
    seqSys4.dce.key_count = seqSys3.dce.key_count := by
  refine ⟨rfl, by decide, by decide, by decide, by decide⟩

/-- Counterexample to C8 as stated: the error state of the exhausted-index
`key_update` is reached from a freshly constructed cache by four public
operations (create "a", remove "a", create "b", create "c"), and it
violates the small-pool accounting invariant: the slot lists "c" in its
`contents` although no key record backs it, so the slot sums to
`1 + (SMALL_CAPACITY - 2) ≠ SMALL_CAPACITY`. -/
theorem c8_counterexample :
    ReachableAny seqSys4 ∧ smallPoolInvB seqSys4.dce = false := by
  constructor
  · refine ReachableAny.stepErr seqSys3 seqSys4
      (Op.update "c" [0x13] 0 none false LARGE_POOL_START)
      "Ran out of key indices in dictionary" ?_ (by rfl)
    refine ReachableAny.stepOk seqSys2 seqSys3
      (Op.update "b" [0x12] 0 none false LARGE_POOL_START) ?_ (by rfl)
    refine ReachableAny.stepOk seqSys1 seqSys2 (Op.remove "a" false) ?_ (by rfl)
    refine ReachableAny.stepOk sysFresh seqSys1
      (Op.update "a" [0x11] 0 none false LARGE_POOL_START) ?_ (by rfl)
    exact ReachableAny.init dictDefault 1 [] hwBlank []
  · decide

/-- C7: on a sorted, disjoint, non-touching heap of 1-based ranges,
`get_free_key_index` pops the numerically smallest free index (`None` when
the heap is exhausted), re-inserts the remainder `{start+1, run-1}` when
the popped range has nonzero run, and raises `last_disk_key_index` to
`index + 1` whenever the returned index exceeds it. -/
theorem c7_get_free_key_index (st : DictCacheEntry)
    (hsort : List.Pairwise (fun a b => a.start + a.run + 1 < b.start) st.free_keys)
    (hpos : ∀ r ∈ st.free_keys, 1 ≤ r.start) :
    (st.free_keys = [] → get_free_key_index st = (none, st)) ∧
    (∀ fk rest, st.free_keys = fk :: rest →
      (get_free_key_index st).1 = some fk.start ∧
      coversFree st.free_keys fk.start = true ∧
      (∀ j, coversFree st.free_keys j = true → fk.start ≤ j) ∧
      (get_free_key_index st).2.free_keys =
        (if fk.run > 0 then heapInsert rest { start := fk.start + 1, run := fk.run - 1 }
         else rest) ∧
      (get_free_key_index st).2.last_disk_key_index =
        (if st.last_disk_key_index < fk.start then fk.start + 1
         else st.last_disk_key_index)) := by
  constructor
  · intro h
    simp [get_free_key_index, h]
  · intro fk rest h
    have hfk : 1 ≤ fk.start := hpos fk (by rw [h]; exact List.mem_cons_self fk rest)
    have hfk0 : ¬ fk.start = 0 := by omega
    rw [h] at hsort
    have hhead := (List.pairwise_cons.mp hsort).1
    refine ⟨?_, ?_, ?_, ?_, ?_⟩
    · simp [get_free_key_index, h, hfk0]
    · simp [coversFree, h]
    · intro j hj
      simp [coversFree, h] at hj
      rcases hj with hj | ⟨r, hr, hr1, _⟩
      · exact hj.1
      · have := hhead r hr
        omega
    · simp [get_free_key_index, h]
    · simp [get_free_key_index, h]

/-- Witness for C7 at the concrete heap `[{3, 2}, {9, 0}]`. -/
theorem c7_get_free_key_index_witness :
    (get_free_key_index
      { DictCacheEntry.new dictDefault 1 [] with
        free_keys := [⟨3, 2⟩, ⟨9, 0⟩]
        last_disk_key_index := 1 }).1 = some 3 ∧
    (get_free_key_index
      { DictCacheEntry.new dictDefault 1 [] with
        free_keys := [⟨3, 2⟩, ⟨9, 0⟩]
        last_disk_key_index := 1 }).2.free_keys = [⟨4, 1⟩, ⟨9, 0⟩] ∧
    (get_free_key_index
      { DictCacheEntry.new dictDefault 1 [] with
        free_keys := [⟨3, 2⟩, ⟨9, 0⟩]
        last_disk_key_index := 1 }).2.last_disk_key_index = 4 := by
  have h := (c7_get_free_key_index
    { DictCacheEntry.new dictDefault 1 [] with
      free_keys := [⟨3, 2⟩, ⟨9, 0⟩]
      last_disk_key_index := 1 }
    (by decide) (by decide)).2 ⟨3, 2⟩ [⟨9, 0⟩] rfl
  refine ⟨h.1, ?_, ?_⟩
  · rw [h.2.2.2.1]
    decide
  · rw [h.2.2.2.2]
    decide

/-- Page allocation for a nonempty extent with an exhausted fastspace pool
fails at the first page. -/
theorem allocPages_empty_pool (hw : Hw) (v2p : V2P) (l : List Nat)
    (hl : ¬ l = []) (hpool : hw.freePool = []) :
    allocPages l hw v2p = Except.error "out of disk space" := by
  cases l with
  | nil => exact absurd rfl hl
  | cons a rest => simp [allocPages, hpool]

/-- A page range with a positive page count is nonempty. -/
theorem rangeStep_ne_nil (a b s : Nat) (h : 1 ≤ (b - a + s - 1) / s) :
    ¬ rangeStep a b s = [] := by
  unfold rangeStep
  intro hc
  rw [List.map_eq_nil, List.range_eq_nil] at hc
  omega

/-- C4 amended: whenever `key_update` takes the large-pool creation path
(the key is absent and the data does not fit the small pool), a descriptor
index is available, and the fastspace pool is empty, the call panics with
"out of disk space" instead of returning an error. -/
theorem c4_amended (hw : Hw) (v2p : V2P) (st st2 : DictCacheEntry) (name : String)
    (data : List Nat) (offset : Nat) (alloc_hint : Option Nat) (truncate : Bool)
    (ptr : Nat)
    (hens : ensure_key_entry hw v2p { st with age := satAdd1 st.age, clean := false } name
              = Except.ok (st2, false))
    (hcase : ¬ (data.length + offset < SMALL_CAPACITY ∧ alloc_hint.getD 0 < SMALL_CAPACITY))
    (hidx : ((get_free_key_index st2).1).isSome = true)
    (hpool : hw.freePool = []) :
    key_update hw v2p st name data offset alloc_hint truncate ptr
      = Res.panic "out of disk space" := by
  obtain ⟨di, hdi⟩ := Option.isSome_iff_exists.mp hidx
  have hgf : get_free_key_index st2 = (some di, (get_free_key_index st2).2) := by
    have hp := Prod.mk.eta (p := get_free_key_index st2)
    rw [hdi] at hp
    exact hp.symm
  have hm : SMALL_CAPACITY ≤
      (if alloc_hint.getD 0 > data.length + offset then alloc_hint.getD 0
       else data.length + offset) := by
    rcases Decidable.not_and_iff_or_not.mp hcase with hc | hc
    · split
      · omega
      · omega
    · split
      · omega
      · omega
  have hR : 1 ≤ ((ptr +
      pageAlignedVa (if alloc_hint.getD 0 > data.length + offset then alloc_hint.getD 0
        else data.length + offset) - ptr) + VPAGE_SIZE - 1) / VPAGE_SIZE := by
    unfold pageAlignedVa VPAGE_SIZE
    unfold SMALL_CAPACITY at hm
    generalize (if alloc_hint.getD 0 > data.length + offset then alloc_hint.getD 0
      else data.length + offset) = m at hm ⊢
    have hk : 1 ≤ (m + 4096 - 1) / 4096 := by
      rw [Nat.one_le_div_iff (by norm_num)]
      omega
    have hkk : 4096 ≤ (m + 4096 - 1) / 4096 * 4096 := by
      calc 4096 = 1 * 4096 := by norm_num
      _ ≤ (m + 4096 - 1) / 4096 * 4096 := Nat.mul_le_mul_right _ hk
    rw [Nat.one_le_div_iff (by norm_num)]
    omega
  show key_update_go 4 hw v2p st name data offset alloc_hint truncate ptr
      = Res.panic "out of disk space"
  rw [show (4 : Nat) = 3 + 1 from rfl]
  rw [key_update_go]
  rw [hens]
  simp only [if_neg hcase]
  rw [hgf]
  rw [allocPages_empty_pool hw v2p _ (rangeStep_ne_nil _ _ _ hR) hpool]
  rfl

/-- Witness for the amended C4 at a concrete fresh dictionary with an
empty fastspace pool. -/
theorem c4_amended_witness :
    key_update hwNoSpace [] (DictCacheEntry.new dictDefault 1 []) "big" [0xAA] 0
      (some SMALL_CAPACITY) false LARGE_POOL_START = Res.panic "out of disk space" := by
  exact c4_amended hwNoSpace [] (DictCacheEntry.new dictDefault 1 [])
    { DictCacheEntry.new dictDefault 1 [] with
      age := satAdd1 (DictCacheEntry.new dictDefault 1 []).age
      clean := false }
    "big" [0xAA] 0 (some SMALL_CAPACITY) false LARGE_POOL_START
    rfl (by decide) (by decide) rfl

/-- C5 amended: in the small-key creation arm with a fitting best-fit slot
and an exhausted free-index heap, `key_update` returns the out-of-indices
error; the error state keeps `keys` and `key_count` (and the small pool
length) unchanged, but the chosen slot has the new name appended, its
`avail` debited by the reservation and its clean bit cleared, and
`small_pool_free` has been repopulated accordingly -- the slot mutation
precedes the failed descriptor-index allocation. -/
theorem c5_amended (hw : Hw) (v2p : V2P) (st st2 : DictCacheEntry) (name : String)
    (data : List Nat) (offset : Nat) (alloc_hint : Option Nat) (truncate : Bool)
    (ptr : Nat) (a i resv : Nat) (heap2 : List (Nat × Nat))
    (hres : resv = (if alloc_hint.getD 0 > data.length + offset then alloc_hint.getD 0
        else data.length + offset))
    (hens : ensure_key_entry hw v2p { st with age := satAdd1 st.age, clean := false } name
              = Except.ok (st2, false))
    (hsmall : data.length + offset < SMALL_CAPACITY ∧ alloc_hint.getD 0 < SMALL_CAPACITY)
    (hpoolne : ¬ st2.small_pool.length = 0)
    (hpop : poolFreePop st2.small_pool_free = some ((a, i), heap2))
    (hfit : resv ≤ a)
    (hi : i < st2.small_pool.length)
    (hfit2 : resv ≤ (st2.small_pool.get ⟨i, hi⟩).avail)
    (hfree : st2.free_keys = []) :
    ∃ st3, key_update hw v2p st name data offset alloc_hint truncate ptr
        = Res.error ⟨hw, v2p, st3⟩ "Ran out of key indices in dictionary" ∧
      st3.keys = st2.keys ∧
      st3.key_count = st2.key_count ∧
      st3.small_pool = st2.small_pool.set i
        { contents := (st2.small_pool.get ⟨i, hi⟩).contents ++ [name],
          avail := (st2.small_pool.get ⟨i, hi⟩).avail - resv, clean := false } ∧
      st3.small_pool_free =
        ((st2.small_pool.get ⟨i, hi⟩).avail - resv, i) :: heap2 := by
  subst hres
  have hnotz : ¬ (st2.small_pool.length = 0) := hpoolne
  refine ⟨{ st2 with
      small_pool := st2.small_pool.set i
        { contents := (st2.small_pool.get ⟨i, hi⟩).contents ++ [name],
          avail := (st2.small_pool.get ⟨i, hi⟩).avail -
            (if alloc_hint.getD 0 > data.length + offset then alloc_hint.getD 0
             else data.length + offset),
          clean := false }
      small_pool_free := ((st2.small_pool.get ⟨i, hi⟩).avail -
          (if alloc_hint.getD 0 > data.length + offset then alloc_hint.getD 0
           else data.length + offset), i) :: heap2 }, ?_, rfl, rfl, rfl, rfl⟩
  show key_update_go 4 hw v2p st name data offset alloc_hint truncate ptr = _
  rw [show (4 : Nat) = 3 + 1 from rfl]
  rw [key_update_go]
  rw [hens]
  simp only [if_pos hsmall]
  rw [smallCreate]
  simp only [if_neg hnotz]
  rw [smallCreateCore]
  rw [hpop]
  simp only [ge_iff_le, if_pos hfit]
  rw [dif_pos hi]
  simp only [if_pos hfit2]
  simp only [get_free_key_index, hfree]
  rfl

/-- Witness for the amended C5 at the concrete exhausted-heap state of the
four-operation scenario. -/
theorem c5_amended_witness :
    ∃ st3, key_update seqSys3.hw seqSys3.v2p seqSys3.dce "c" [0x13] 0 none false
        LARGE_POOL_START
      = Res.error ⟨seqSys3.hw, seqSys3.v2p, st3⟩ "Ran out of key indices in dictionary" ∧
      st3.keys =
        ({ seqSys3.dce with age := satAdd1 seqSys3.dce.age, clean := false }).keys := by
  obtain ⟨st3, h1, h2, _⟩ := c5_amended seqSys3.hw seqSys3.v2p seqSys3.dce
    { seqSys3.dce with age := satAdd1 seqSys3.dce.age, clean := false }
    "c" [0x13] 0 none false LARGE_POOL_START 4079 0 1 []
    (by decide) rfl (by decide) (by decide) (by decide) (by decide) (by decide)
    (by decide) (by decide)
  exact ⟨st3, h1, h2⟩

/-- One lookup step of the key map. -/
theorem kmGet_cons (e : String × KeyCacheEntry) (rest : List (String × KeyCacheEntry))
    (k : String) :
    kmGet (e :: rest) k = if e.1 = k then some e.2 else kmGet rest k := by
  by_cases h : e.1 = k
  · simp [kmGet, List.find?_cons, h]
  · simp [kmGet, List.find?_cons, h]

/-- Lookup after insertion at the inserted key. -/
theorem kmGet_kmPut_self (m : List (String × KeyCacheEntry)) (k : String)
    (v : KeyCacheEntry) : kmGet (kmPut m k v) k = some v := by
  induction m with
  | nil => simp [kmPut, kmGet_cons]
  | cons e rest ih =>
      by_cases he : e.1 = k
      · simp [kmPut, he, kmGet_cons]
      · simp [kmPut, he, kmGet_cons, ih]

/-- Lookup after insertion at a different key. -/
theorem kmGet_kmPut_ne (m : List (String × KeyCacheEntry)) (k k2 : String)
    (v : KeyCacheEntry) (h : ¬ k2 = k) :
    kmGet (kmPut m k v) k2 = kmGet m k2 := by
  have h2 : ¬ k = k2 := fun hc => h hc.symm
  induction m with
  | nil => simp [kmPut, kmGet_cons, kmGet, h2]
  | cons e rest ih =>
      by_cases he : e.1 = k
      · have he2 : ¬ e.1 = k2 := by rw [he]; exact h2
        simp [kmPut, he, kmGet_cons, h2, he2]
      · by_cases he2 : e.1 = k2
        · simp [kmPut, he, kmGet_cons, he2, h]
        · simp [kmPut, he, kmGet_cons, he2, ih]

/-- Reserved bytes recorded for `n` after inserting key `k`. -/
theorem reservedOf_kmPut (m : List (String × KeyCacheEntry)) (k n : String)
    (v : KeyCacheEntry) :
    reservedOf (kmPut m k v) n = if n = k then v.reserved else reservedOf m n := by
  by_cases h : n = k
  · subst h
    simp [reservedOf, kmGet_kmPut_self]
  · simp [reservedOf, kmGet_kmPut_ne m k n v h, h]

/-- Slot sums only look at the reservations of the listed names. -/
theorem slotSum_congr (m1 m2 : List (String × KeyCacheEntry)) (l : List String)
    (h : ∀ n ∈ l, reservedOf m1 n = reservedOf m2 n) :
    slotSum m1 l = slotSum m2 l := by
  unfold slotSum
  congr 1
  exact List.map_congr_left h

/-- Inserting a key not listed in `l` does not change the slot sum. -/
theorem slotSum_kmPut_not_mem (m : List (String × KeyCacheEntry)) (l : List String)
    (k : String) (v : KeyCacheEntry) (h : ¬ k ∈ l) :
    slotSum (kmPut m k v) l = slotSum m l := by
  refine slotSum_congr _ _ l (fun n hn => ?_)
  rw [reservedOf_kmPut]
  rw [if_neg]
  intro hc
  subst hc
  exact h hn

/-- Inserting a key with the same reservation does not change any slot
sum. -/
theorem slotSum_kmPut_same_reserved (m : List (String × KeyCacheEntry))
    (l : List String) (k : String) (v : KeyCacheEntry)
    (h : v.reserved = reservedOf m k) :
    slotSum (kmPut m k v) l = slotSum m l := by
  refine slotSum_congr _ _ l (fun n hn => ?_)
  rw [reservedOf_kmPut]
  split
  case isTrue heq => rw [heq, h]
  case isFalse => rfl

/-- Slot sum of a one-element extension. -/
theorem slotSum_append_single (m : List (String × KeyCacheEntry)) (l : List String)
    (n : String) : slotSum m (l ++ [n]) = slotSum m l + reservedOf m n := by
  simp [slotSum]

/-- `getLastD` on a nonempty list is its `getLast`. -/
theorem getLastD_eq_getLast_of_ne_nil : ∀ (l : List String) (h : ¬ l = [])
    (a : String), l.getLastD a = l.getLast h := by
  intro l
  induction l with
  | nil => intro h a; exact absurd rfl h
  | cons b t ih =>
      intro h a
      cases t with
      | nil => rfl
      | cons c t2 =>
          rw [List.getLastD_cons]
          rw [List.getLast_cons (by simp : ¬ (c :: t2) = [])]
          exact ih (by simp) b

/-- `swapRemove` is, as a multiset, the removal of position `i`. -/
theorem swapRemove_perm : ∀ (l : List String) (i : Nat), i < l.length →
    List.Perm (swapRemove l i) (l.eraseIdx i)
  | [], i, h => by simp at h
  | a :: l2, 0, _ => by
      cases l2 with
      | nil => exact List.Perm.nil
      | cons b l3 =>
          show List.Perm (((a :: b :: l3).set 0 ((a :: b :: l3).getLastD "")).dropLast)
            ((a :: b :: l3).eraseIdx 0)
          have hne : (b :: l3) ≠ [] := by simp
          have hlast : (a :: b :: l3).getLastD "" = (b :: l3).getLast hne := by
            rw [List.getLastD_cons]
            exact getLastD_eq_getLast_of_ne_nil (b :: l3) hne a
          rw [hlast]
          show List.Perm (((b :: l3).getLast hne :: b :: l3).dropLast) (b :: l3)
          rw [List.dropLast_cons_of_ne_nil hne]
          have hp := List.perm_append_singleton ((b :: l3).getLast hne)
            ((b :: l3).dropLast)
          rw [List.dropLast_append_getLast hne] at hp
          exact hp.symm
  | a :: l2, j + 1, h => by
      have hj : j < l2.length := by simpa using h
      have hl2 : l2 ≠ [] := by
        intro hc
        rw [hc] at hj
        simp at hj
      have hset : (a :: l2).set (j + 1) ((a :: l2).getLastD "")
          = a :: l2.set j (l2.getLastD "") := by
        obtain ⟨c, l3, rfl⟩ := List.exists_cons_of_ne_nil hl2
        rw [List.getLastD_cons]
        rw [show (c :: l3).getLastD a = (c :: l3).getLastD "" from ?_]
        · rfl
        · cases l3 with
          | nil => rfl
          | cons d l4 => rfl
      show List.Perm (((a :: l2).set (j + 1) ((a :: l2).getLastD "")).dropLast)
        ((a :: l2).eraseIdx (j + 1))
      rw [hset]
      have hset_ne : l2.set j (l2.getLastD "") ≠ [] := by
        intro hc
        have := congrArg List.length hc
        simp at this
        rw [this] at hj
        simp at hj
      rw [List.dropLast_cons_of_ne_nil hset_ne]
      show List.Perm (a :: swapRemove l2 j) (a :: l2.eraseIdx j)
      exact List.Perm.cons a (swapRemove_perm l2 j hj)

/-- Slot sums distribute over append. -/
theorem slotSum_append (m : List (String × KeyCacheEntry)) (l1 l2 : List String) :
    slotSum m (l1 ++ l2) = slotSum m l1 + slotSum m l2 := by
  simp [slotSum]

/-- Slot sum of a cons. -/
theorem slotSum_cons (m : List (String × KeyCacheEntry)) (x : String) (l : List String) :
    slotSum m (x :: l) = reservedOf m x + slotSum m l := by
  simp [slotSum]

/-- Decomposition of a list at a valid index. -/
theorem list_decomp_at {α : Type} (l : List α) (i : Nat) (h : i < l.length) :
    l = l.take i ++ l.get ⟨i, h⟩ :: l.drop (i + 1) := by
  conv_lhs => rw [← List.take_append_drop i l, List.drop_eq_get_cons h]

/-- Removing position `pos` removes exactly that element's reservation from
the slot sum. -/
theorem slotSum_swapRemove (m : List (String × KeyCacheEntry)) (l : List String)
    (pos : Nat) (h : pos < l.length) :
    slotSum m (swapRemove l pos) + reservedOf m (l.get ⟨pos, h⟩) = slotSum m l := by
  have hsum : slotSum m (swapRemove l pos) = slotSum m (l.eraseIdx pos) :=
    ((swapRemove_perm l pos h).map (reservedOf m)).sum_eq
  rw [hsum, List.eraseIdx_eq_take_drop_succ, slotSum_append]
  conv_rhs => rw [list_decomp_at l pos h]
  rw [slotSum_append, slotSum_cons]
  omega

/-- Removing position `pos` removes one occurrence of the element that was
there. -/
theorem count_swapRemove_self (l : List String) (pos : Nat) (h : pos < l.length)
    (n : String) (hname : l.get ⟨pos, h⟩ = n) :
    (swapRemove l pos).count n + 1 = l.count n := by
  rw [(swapRemove_perm l pos h).count_eq, List.eraseIdx_eq_take_drop_succ]
  conv_rhs => rw [list_decomp_at l pos h]
  rw [hname]
  simp [List.count_append]
  omega

/-- Removing a position never increases a count. -/
theorem count_swapRemove_le (l : List String) (pos : Nat) (h : pos < l.length)
    (n : String) : (swapRemove l pos).count n ≤ l.count n := by
  rw [(swapRemove_perm l pos h).count_eq]
  exact (List.eraseIdx_sublist l pos).count_le n

/-- Occurrence counts after replacing slot `i`. -/
theorem occCount_set : ∀ (pool : List KeySmallPool) (i : Nat) (ksp : KeySmallPool)
    (h : i < pool.length) (n : String),
    occCount (pool.set i ksp) n + (pool.get ⟨i, h⟩).contents.count n
      = occCount pool n + ksp.contents.count n := by
  intro pool
  induction pool with
  | nil =>
      intro i ksp h n
      simp at h
  | cons p rest ih =>
      intro i ksp h n
      cases i with
      | zero =>
          simp [occCount]
          omega
      | succ j =>
          have hj : j < rest.length := by simpa using h
          have hrec := ih j ksp hj n
          simp [occCount] at hrec ⊢
          omega

/-- Growing the pool with blank slots does not change occurrence counts. -/
theorem occCount_growPool (pool : List KeySmallPool) (m : Nat) (n : String) :
    occCount (growPool pool m) n = occCount pool n := by
  simp [growPool, occCount, KeySmallPool.new]

/-- Occurrence counts after appending one slot. -/
theorem occCount_append_single (pool : List KeySmallPool) (ksp : KeySmallPool)
    (n : String) :
    occCount (pool ++ [ksp]) n = occCount pool n + ksp.contents.count n := by
  simp [occCount]

/-- A name listed in some slot has a positive occurrence count. -/
theorem occCount_pos_of_mem (pool : List KeySmallPool) (ksp : KeySmallPool)
    (hk : ksp ∈ pool) (n : String) (hn : n ∈ ksp.contents) :
    1 ≤ occCount pool n := by
  have h1 : 1 ≤ ksp.contents.count n := List.count_pos_iff_mem.mpr hn
  have h2 : ksp.contents.count n ∈ pool.map (fun k => k.contents.count n) :=
    List.mem_map_of_mem _ hk
  exact le_trans h1 (List.single_le_sum (fun x _ => Nat.zero_le x) _ h2)

/-- Under a ranged dictionary index, an address classified as small lies
below the small-pool end. -/
theorem start_lt_end_of_index_isSome (k : KeyCacheEntry) (idx : Nat)
    (hio : INDEX_OK idx)
    (hs : (small_storage_index_from_key k idx).isSome = true) :
    k.start < SMALL_POOL_END := by
  unfold INDEX_OK at hio
  simp only [small_storage_index_from_key] at hs
  split at hs
  case isTrue h =>
    have hd : (idx + 1) * SMALL_POOL_STRIDE
        = idx * SMALL_POOL_STRIDE + SMALL_POOL_STRIDE := by ring
    omega
  case isFalse => simp at hs

/-- A name with no valid key record is listed in no slot. -/
theorem not_in_contents_of_invalid (st : DictCacheEntry) (hCV : ContentsValid st)
    (name : String)
    (h : ∀ k, kmGet st.keys name = some k → ¬ k.flags.valid = true) :
    ∀ ksp ∈ st.small_pool, ¬ name ∈ ksp.contents := by
  intro ksp hk hn
  obtain ⟨k, hk1, hk2, _⟩ := hCV ksp hk name hn
  exact h k hk1 hk2

/-- A name listed in no slot has occurrence count zero. -/
theorem occCount_eq_zero_of_absent (pool : List KeySmallPool) (n : String)
    (h : ∀ ksp ∈ pool, ¬ n ∈ ksp.contents) : occCount pool n = 0 := by
  unfold occCount
  apply List.sum_eq_zero
  intro x hx
  obtain ⟨ksp, hk, rfl⟩ := List.mem_map.mp hx
  exact List.count_eq_zero.mpr (h ksp hk)

/-- A slot's count is bounded by the global occurrence count. -/
theorem count_le_occCount (pool : List KeySmallPool) (ksp : KeySmallPool)
    (hk : ksp ∈ pool) (n : String) :
    ksp.contents.count n ≤ occCount pool n :=
  List.single_le_sum (fun x _ => Nat.zero_le x) _ (List.mem_map_of_mem _ hk)

/-- Growing the pool with blank slots preserves the invariant. -/
theorem dinv_grow (st : DictCacheEntry) (m : Nat) (hinv : DInv st) :
    DInv { st with small_pool := growPool st.small_pool m } := by
  obtain ⟨hbal, hCV, hND, hIO⟩ := hinv
  refine ⟨?_, ?_, ?_, hIO⟩
  · intro ksp hk
    simp only [growPool] at hk
    rcases List.mem_append.mp hk with hk | hk
    · exact hbal ksp hk
    · have := List.eq_of_mem_replicate hk
      subst this
      simp [KeySmallPool.new, slotSum]
  · intro ksp hk n hn
    simp only [growPool] at hk
    rcases List.mem_append.mp hk with hk | hk
    · exact hCV ksp hk n hn
    · have := List.eq_of_mem_replicate hk
      subst this
      simp [KeySmallPool.new] at hn
  · intro n
    rw [show ({ st with small_pool := growPool st.small_pool m } :
        DictCacheEntry).small_pool = growPool st.small_pool m from rfl]
    rw [occCount_growPool]
    exact hND n

/-- Appending a fresh name to slot `i` (debiting its `avail` by the new
key's reservation) while inserting the backing key record preserves the
invariant. -/
theorem dinv_insert (st : DictCacheEntry) (i : Nat) (name : String)
    (k : KeyCacheEntry) (cb : Bool)
    (hinv : DInv st)
    (hi : i < st.small_pool.length)
    (habs : ∀ ksp ∈ st.small_pool, ¬ name ∈ ksp.contents)
    (hres : k.reserved ≤ (st.small_pool.get ⟨i, hi⟩).avail)
    (hval : k.flags.valid = true)
    (hidx : (small_storage_index_from_key k st.index).isSome = true) :
    DInv { st with
      small_pool := st.small_pool.set i
        { contents := (st.small_pool.get ⟨i, hi⟩).contents ++ [name],
          avail := (st.small_pool.get ⟨i, hi⟩).avail - k.reserved, clean := cb },
      keys := kmPut st.keys name k } := by
  obtain ⟨hbal, hCV, hND, hIO⟩ := hinv
  have hmem0 : st.small_pool.get ⟨i, hi⟩ ∈ st.small_pool := List.get_mem _ _ _
  have hnabs : ¬ name ∈ (st.small_pool.get ⟨i, hi⟩).contents := habs _ hmem0
  have occ0 : occCount st.small_pool name = 0 :=
    occCount_eq_zero_of_absent _ _ habs
  refine ⟨?_, ?_, ?_, hIO⟩
  · intro ksp hk
    rcases List.mem_or_eq_of_mem_set hk with hk | rfl
    · rw [slotSum_kmPut_not_mem _ _ _ _ (habs ksp hk)]
      exact hbal ksp hk
    · show slotSum (kmPut st.keys name k)
        ((st.small_pool.get ⟨i, hi⟩).contents ++ [name])
        + ((st.small_pool.get ⟨i, hi⟩).avail - k.reserved) = SMALL_CAPACITY
      rw [slotSum_append_single, slotSum_kmPut_not_mem _ _ _ _ hnabs]
      rw [reservedOf_kmPut, if_pos rfl]
      have := hbal _ hmem0
      omega
  · intro ksp hk n hn
    rcases List.mem_or_eq_of_mem_set hk with hk2 | rfl
    · have hne : ¬ n = name := fun hc => habs ksp hk2 (hc ▸ hn)
      obtain ⟨k0, h1, h2, h3⟩ := hCV ksp hk2 n hn
      exact ⟨k0, by rw [kmGet_kmPut_ne _ _ _ _ hne]; exact h1, h2, h3⟩
    · rcases List.mem_append.mp hn with hn2 | hn2
      · have hne : ¬ n = name := fun hc => hnabs (hc ▸ hn2)
        obtain ⟨k0, h1, h2, h3⟩ := hCV _ hmem0 n hn2
        exact ⟨k0, by rw [kmGet_kmPut_ne _ _ _ _ hne]; exact h1, h2, h3⟩
      · have hnn : n = name := by simpa using hn2
        subst hnn
        exact ⟨k, kmGet_kmPut_self _ _ _, hval, hidx⟩
  · intro n
    show occCount (st.small_pool.set i
      { contents := (st.small_pool.get ⟨i, hi⟩).contents ++ [name],
        avail := (st.small_pool.get ⟨i, hi⟩).avail - k.reserved, clean := cb }) n ≤ 1
    have hset := occCount_set st.small_pool i
      { contents := (st.small_pool.get ⟨i, hi⟩).contents ++ [name],
        avail := (st.small_pool.get ⟨i, hi⟩).avail - k.reserved, clean := cb } hi n
    have hproj : ({ contents := (st.small_pool.get ⟨i, hi⟩).contents ++ [name], avail := (st.small_pool.get ⟨i, hi⟩).avail - k.reserved, clean := cb } : KeySmallPool).contents = (st.small_pool.get ⟨i, hi⟩).contents ++ [name] := rfl
    rw [hproj, List.count_append] at hset
    have hocc := hND n
    by_cases hne : n = name
    · subst hne
      have hc0 : List.count n (st.small_pool.get ⟨i, hi⟩).contents = 0 :=
        List.count_eq_zero.mpr hnabs
      have h1 : List.count n [n] = 1 := by simp
      omega
    · have h0 : List.count n [name] = 0 := by
        rw [List.count_eq_zero]
        intro hc
        exact hne (by simpa using hc)
      omega

/-- Appending a new slot holding exactly the fresh name (with `avail`
debited from a full slot) while inserting the backing key record preserves
the invariant. -/
theorem dinv_append_slot (st : DictCacheEntry) (name : String)
    (k : KeyCacheEntry) (cb : Bool)
    (hinv : DInv st)
    (habs : ∀ ksp ∈ st.small_pool, ¬ name ∈ ksp.contents)
    (hres : k.reserved ≤ SMALL_CAPACITY)
    (hval : k.flags.valid = true)
    (hidx : (small_storage_index_from_key k st.index).isSome = true) :
    DInv { st with
      small_pool := st.small_pool ++
        [{ contents := [name], avail := SMALL_CAPACITY - k.reserved, clean := cb }],
      keys := kmPut st.keys name k } := by
  obtain ⟨hbal, hCV, hND, hIO⟩ := hinv
  have occ0 : occCount st.small_pool name = 0 :=
    occCount_eq_zero_of_absent _ _ habs
  refine ⟨?_, ?_, ?_, hIO⟩
  · intro ksp hk
    rcases List.mem_append.mp hk with hk2 | hk2
    · rw [slotSum_kmPut_not_mem _ _ _ _ (habs ksp hk2)]
      exact hbal ksp hk2
    · have hksp : ksp = { contents := [name], avail := SMALL_CAPACITY - k.reserved, clean := cb } := by simpa using hk2
      subst hksp
      show slotSum (kmPut st.keys name k) [name]
          + (SMALL_CAPACITY - k.reserved) = SMALL_CAPACITY
      rw [show ([name] : List String) = [] ++ [name] from rfl, slotSum_append_single]
      rw [reservedOf_kmPut, if_pos rfl]
      simp [slotSum]
      omega
  · intro ksp hk n hn
    rcases List.mem_append.mp hk with hk2 | hk2
    · have hne : ¬ n = name := fun hc => habs ksp hk2 (hc ▸ hn)
      obtain ⟨k0, h1, h2, h3⟩ := hCV ksp hk2 n hn
      exact ⟨k0, by rw [kmGet_kmPut_ne _ _ _ _ hne]; exact h1, h2, h3⟩
    · have hksp : ksp = { contents := [name], avail := SMALL_CAPACITY - k.reserved, clean := cb } := by simpa using hk2
      subst hksp
      have hnn : n = name := by simpa using hn
      subst hnn
      exact ⟨k, kmGet_kmPut_self _ _ _, hval, hidx⟩
  · intro n
    rw [show ({ st with
        small_pool := st.small_pool ++
          [{ contents := [name], avail := SMALL_CAPACITY - k.reserved, clean := cb }],
        keys := kmPut st.keys name k } : DictCacheEntry).small_pool
      = st.small_pool ++
          [{ contents := [name], avail := SMALL_CAPACITY - k.reserved, clean := cb }]
      from rfl]
    rw [occCount_append_single]
    by_cases hne : n = name
    · subst hne
      simp [occ0, List.count_singleton]
    · have : (({ contents := [name], avail := SMALL_CAPACITY - k.reserved, clean := cb } : KeySmallPool)).contents.count n = 0 := by
        simp [List.count_singleton]
        intro hc
        exact absurd hc.symm hne
      rw [this]
      have := hND n
      omega

/-- Changing only a slot's clean bit preserves the invariant. -/
theorem dinv_set_clean (st : DictCacheEntry) (i : Nat) (cb : Bool)
    (hinv : DInv st) (hi : i < st.small_pool.length) :
    DInv { st with small_pool :=
      st.small_pool.set i { st.small_pool.get ⟨i, hi⟩ with clean := cb } } := by
  obtain ⟨hbal, hCV, hND, hIO⟩ := hinv
  have hmem0 : st.small_pool.get ⟨i, hi⟩ ∈ st.small_pool := List.get_mem _ _ _
  refine ⟨?_, ?_, ?_, hIO⟩
  · intro ksp hk
    rcases List.mem_or_eq_of_mem_set hk with hk | rfl
    · exact hbal ksp hk
    · exact hbal (st.small_pool.get ⟨i, hi⟩) hmem0
  · intro ksp hk n hn
    rcases List.mem_or_eq_of_mem_set hk with hk | rfl
    · exact hCV ksp hk n hn
    · exact hCV (st.small_pool.get ⟨i, hi⟩) hmem0 n hn
  · intro n
    show occCount (st.small_pool.set i
      { st.small_pool.get ⟨i, hi⟩ with clean := cb }) n ≤ 1
    have hset := occCount_set st.small_pool i
      { st.small_pool.get ⟨i, hi⟩ with clean := cb } hi n
    have hproj : ({ st.small_pool.get ⟨i, hi⟩ with clean := cb } : KeySmallPool).contents = (st.small_pool.get ⟨i, hi⟩).contents := rfl
    rw [hproj] at hset
    have := hND n
    omega

/-- Re-inserting a key record that keeps its reservation, stays valid and
stays address-classified small preserves the invariant (the `start`, `len`,
`age`, `clean` and cached-data fields are unconstrained). -/
theorem dinv_kmPut_same (st : DictCacheEntry) (name : String) (v : KeyCacheEntry)
    (hinv : DInv st)
    (hres : v.reserved = reservedOf st.keys name)
    (hval : v.flags.valid = true)
    (hidx : (small_storage_index_from_key v st.index).isSome = true) :
    DInv { st with keys := kmPut st.keys name v } := by
  obtain ⟨hbal, hCV, hND, hIO⟩ := hinv
  refine ⟨?_, ?_, hND, hIO⟩
  · intro ksp hk
    rw [slotSum_kmPut_same_reserved _ _ _ _ hres]
    exact hbal ksp hk
  · intro ksp hk n hn
    by_cases hne : n = name
    · subst hne
      exact ⟨v, kmGet_kmPut_self _ _ _, hval, hidx⟩
    · obtain ⟨k0, h1, h2, h3⟩ := hCV ksp hk n hn
      exact ⟨k0, by rw [kmGet_kmPut_ne _ _ _ _ hne]; exact h1, h2, h3⟩

/-- Re-inserting a record for a name listed in no slot preserves the
invariant regardless of the new record's fields. -/
theorem dinv_kmPut_absent (st : DictCacheEntry) (name : String) (v : KeyCacheEntry)
    (hinv : DInv st)
    (habs : ∀ ksp ∈ st.small_pool, ¬ name ∈ ksp.contents) :
    DInv { st with keys := kmPut st.keys name v } := by
  obtain ⟨hbal, hCV, hND, hIO⟩ := hinv
  refine ⟨?_, ?_, hND, hIO⟩
  · intro ksp hk
    rw [slotSum_kmPut_not_mem _ _ _ _ (habs ksp hk)]
    exact hbal ksp hk
  · intro ksp hk n hn
    have hne : ¬ n = name := fun hc => habs ksp hk (hc ▸ hn)
    obtain ⟨k0, h1, h2, h3⟩ := hCV ksp hk n hn
    exact ⟨k0, by rw [kmGet_kmPut_ne _ _ _ _ hne]; exact h1, h2, h3⟩

/-- The small-pool arm of `key_remove`: swap-removing the name from its
slot, crediting the slot's `avail` by the key's reservation, and
tombstoning the record (reservation kept) preserves the invariant. -/
theorem dinv_remove_slot (st : DictCacheEntry) (s : Nat) (name : String)
    (kc tomb : KeyCacheEntry)
    (hinv : DInv st)
    (hs : s < st.small_pool.length)
    (pos : Nat) (hpos : pos < (st.small_pool.get ⟨s, hs⟩).contents.length)
    (hname : (st.small_pool.get ⟨s, hs⟩).contents.get ⟨pos, hpos⟩ = name)
    (hk : kmGet st.keys name = some kc)
    (htr : tomb.reserved = kc.reserved) :
    DInv { st with
      small_pool := st.small_pool.set s
        { contents := swapRemove (st.small_pool.get ⟨s, hs⟩).contents pos,
          avail := (st.small_pool.get ⟨s, hs⟩).avail + kc.reserved, clean := false },
      keys := kmPut st.keys name tomb } := by
  obtain ⟨hbal, hCV, hND, hIO⟩ := hinv
  have hmem0 : st.small_pool.get ⟨s, hs⟩ ∈ st.small_pool := List.get_mem _ _ _
  have hnm : name ∈ (st.small_pool.get ⟨s, hs⟩).contents := by
    rw [← hname]
    exact List.get_mem _ _ _
  have hres : tomb.reserved = reservedOf st.keys name := by
    rw [htr]
    unfold reservedOf
    rw [hk]
  have hrk : reservedOf st.keys name = kc.reserved := by
    unfold reservedOf
    rw [hk]
  have hcs : 1 ≤ (st.small_pool.get ⟨s, hs⟩).contents.count name :=
    List.count_pos_iff_mem.mpr hnm
  have hocc : occCount st.small_pool name ≤ 1 := hND name
  have hcso : (st.small_pool.get ⟨s, hs⟩).contents.count name
      ≤ occCount st.small_pool name := count_le_occCount _ _ hmem0 name
  have hswap := count_swapRemove_self (st.small_pool.get ⟨s, hs⟩).contents pos hpos
    name hname
  have hset0 := occCount_set st.small_pool s
    { contents := swapRemove (st.small_pool.get ⟨s, hs⟩).contents pos,
      avail := (st.small_pool.get ⟨s, hs⟩).avail + kc.reserved, clean := false }
    hs name
  have hocc0 : occCount (st.small_pool.set s
      { contents := swapRemove (st.small_pool.get ⟨s, hs⟩).contents pos,
        avail := (st.small_pool.get ⟨s, hs⟩).avail + kc.reserved, clean := false })
      name = 0 := by
    have hcnew : ({ contents := swapRemove (st.small_pool.get ⟨s, hs⟩).contents pos, avail := (st.small_pool.get ⟨s, hs⟩).avail + kc.reserved, clean := false } : KeySmallPool).contents.count name = (st.small_pool.get ⟨s, hs⟩).contents.count name - 1 := by
      show (swapRemove (st.small_pool.get ⟨s, hs⟩).contents pos).count name = _
      omega
    omega
  refine ⟨?_, ?_, ?_, hIO⟩
  · intro ksp hk2
    rcases List.mem_or_eq_of_mem_set hk2 with hk2 | rfl
    · rw [slotSum_kmPut_same_reserved _ _ _ _ hres]
      exact hbal ksp hk2
    · show slotSum (kmPut st.keys name tomb)
        (swapRemove (st.small_pool.get ⟨s, hs⟩).contents pos)
        + ((st.small_pool.get ⟨s, hs⟩).avail + kc.reserved) = SMALL_CAPACITY
      rw [slotSum_kmPut_same_reserved _ _ _ _ hres]
      have hsw := slotSum_swapRemove st.keys (st.small_pool.get ⟨s, hs⟩).contents
        pos hpos
      rw [hname] at hsw
      have := hbal _ hmem0
      omega
  · intro ksp hk2 n hn
    by_cases hne : n = name
    · subst hne
      have h1 : 1 ≤ occCount (st.small_pool.set s
          { contents := swapRemove (st.small_pool.get ⟨s, hs⟩).contents pos,
            avail := (st.small_pool.get ⟨s, hs⟩).avail + kc.reserved,
            clean := false }) n :=
        occCount_pos_of_mem _ ksp hk2 n hn
      omega
    · rcases List.mem_or_eq_of_mem_set hk2 with hk2 | rfl
      · obtain ⟨k0, h1, h2, h3⟩ := hCV ksp hk2 n hn
        exact ⟨k0, by rw [kmGet_kmPut_ne _ _ _ _ hne]; exact h1, h2, h3⟩
      · have hn2 : n ∈ (st.small_pool.get ⟨s, hs⟩).contents := by
          have hperm := swapRemove_perm (st.small_pool.get ⟨s, hs⟩).contents pos hpos
          have := hperm.mem_iff.mp hn
          exact List.mem_of_mem_eraseIdx this
        obtain ⟨k0, h1, h2, h3⟩ := hCV _ hmem0 n hn2
        exact ⟨k0, by rw [kmGet_kmPut_ne _ _ _ _ hne]; exact h1, h2, h3⟩
  · intro n
    show occCount (st.small_pool.set s
      { contents := swapRemove (st.small_pool.get ⟨s, hs⟩).contents pos,
        avail := (st.small_pool.get ⟨s, hs⟩).avail + kc.reserved, clean := false }) n ≤ 1
    have hset := occCount_set st.small_pool s
      { contents := swapRemove (st.small_pool.get ⟨s, hs⟩).contents pos,
        avail := (st.small_pool.get ⟨s, hs⟩).avail + kc.reserved, clean := false }
      hs n
    have hproj2 : ({ contents := swapRemove (st.small_pool.get ⟨s, hs⟩).contents pos, avail := (st.small_pool.get ⟨s, hs⟩).avail + kc.reserved, clean := false } : KeySmallPool).contents = swapRemove (st.small_pool.get ⟨s, hs⟩).contents pos := rfl
    rw [hproj2] at hset
    have hle : (swapRemove (st.small_pool.get ⟨s, hs⟩).contents pos).count n
        ≤ (st.small_pool.get ⟨s, hs⟩).contents.count n :=
      count_swapRemove_le _ pos hpos n
    have := hND n
    omega

/-- Length of a grown pool. -/
theorem growPool_length (pool : List KeySmallPool) (n : Nat) :
    (growPool pool n).length = max pool.length n := by
  simp [growPool]
  omega

/-- Absence of a name survives growing the pool. -/
theorem habs_grow (pool : List KeySmallPool) (m : Nat) (name : String)
    (habs : ∀ ksp ∈ pool, ¬ name ∈ ksp.contents) :
    ∀ ksp ∈ growPool pool m, ¬ name ∈ ksp.contents := by
  intro ksp hk
  rcases List.mem_append.mp hk with hk | hk
  · exact habs ksp hk
  · have := List.eq_of_mem_replicate hk
    subst this
    simp [KeySmallPool.new]

/-- Loading a scanned key into the cache (`try_fill_small_key` followed by
the `keys.insert`) preserves the invariant, provided the name has no
record yet and the descriptor was valid. -/
theorem dinv_try_fill (hw : Hw) (v2p : V2P) (st st2 : DictCacheEntry)
    (kc kc2 : KeyCacheEntry) (name : String)
    (hinv : DInv st)
    (habs : ∀ ksp ∈ st.small_pool, ¬ name ∈ ksp.contents)
    (hval : kc.flags.valid = true)
    (h : try_fill_small_key hw v2p st kc name = .ok (st2, kc2)) :
    DInv { st2 with keys := kmPut st2.keys name kc2 } := by
  unfold try_fill_small_key at h
  cases hidx0 : small_storage_index_from_key kc st.index with
  | none =>
      rw [hidx0] at h
      injection h with h
      injection h with h1 h2
      subst h1
      subst h2
      exact dinv_kmPut_absent st name kc hinv habs
  | some pi =>
      rw [hidx0] at h
      split at h
      case h_1 heq => cases heq
      case h_2 pool_index heq =>
        injection heq with heq
        subst heq
        simp only [] at h
        split at h
        · exact absurd h (by simp)
        rename_i h1
        split at h
        · exact absurd h (by simp)
        rename_i h2
        split at h
        · exact absurd h (by simp)
        rename_i h3
        have hgrow : pi < (growPool st.small_pool (pi + 1)).length := by
          rw [growPool_length]
          omega
        have hgd : (growPool st.small_pool (pi + 1)).getD pi KeySmallPool.new
            = (growPool st.small_pool (pi + 1)).get ⟨pi, hgrow⟩ :=
          List.getD_eq_get _ _ hgrow
        rw [hgd] at h h3
        have hres : kc.reserved
            ≤ ((growPool st.small_pool (pi + 1)).get ⟨pi, hgrow⟩).avail := by
          simpa using h3
        have hig : DInv { st with small_pool := growPool st.small_pool (pi + 1) } :=
          dinv_grow st (pi + 1) hinv
        have habsg := habs_grow st.small_pool (pi + 1) name habs
        have hmain := dinv_insert
          { st with small_pool := growPool st.small_pool (pi + 1) } pi name
        have hkc2 : ∃ d2, kc2 = { kc with data := d2 } ∧
            st2 = { st with small_pool := (growPool st.small_pool (pi + 1)).set pi
                              { contents := ((growPool st.small_pool (pi + 1)).get ⟨pi, hgrow⟩).contents ++ [name],
                                avail := ((growPool st.small_pool (pi + 1)).get ⟨pi, hgrow⟩).avail - kc.reserved,
                                clean := ((growPool st.small_pool (pi + 1)).get ⟨pi, hgrow⟩).clean } } := by
          cases hrd : readDataPage hw v2p (kc.start / VPAGE_SIZE * VPAGE_SIZE) with
          | none =>
              rw [hrd] at h
              simp only [] at h
              injection h with h
              injection h with ha hb
              exact ⟨kc.data, by rw [← hb], ha.symm⟩
          | some page =>
              rw [hrd] at h
              simp only [] at h
              split at h
              case h_1 bytes hsl =>
                injection h with h
                injection h with ha hb
                exact ⟨some { clean := true, data := bytes }, by rw [← hb], ha.symm⟩
              case h_2 e hsl =>
                exact absurd h (by simp)
        obtain ⟨d2, hkc2eq, hst2eq⟩ := hkc2
        subst hkc2eq
        subst hst2eq
        refine hmain { kc with data := d2 }
          (((growPool st.small_pool (pi + 1)).get ⟨pi, hgrow⟩).clean)
          hig hgrow habsg hres hval ?_
        rw [show small_storage_index_from_key { kc with data := d2 } ({ st with small_pool := growPool st.small_pool (pi + 1) } : DictCacheEntry).index = some pi from hidx0]
        rfl

/-- The slot capacity of one dictionary's small-pool region fits strictly
inside the region. -/
theorem maxslots_mul_lt : MAXSLOTS * SMALL_CAPACITY < SMALL_POOL_STRIDE := by
  decide

/-- Replacing the pool by one with the same contents and avails (slot by
slot) preserves the invariant. -/
theorem dinv_pool_contents_eq (st : DictCacheEntry) (pool2 : List KeySmallPool)
    (h : pool2.map (fun k => (k.contents, k.avail))
        = st.small_pool.map (fun k => (k.contents, k.avail)))
    (hinv : DInv st) : DInv { st with small_pool := pool2 } := by
  obtain ⟨hbal, hCV, hND, hIO⟩ := hinv
  have hmem : ∀ ksp ∈ pool2, ∃ ksp0 ∈ st.small_pool,
      ksp0.contents = ksp.contents ∧ ksp0.avail = ksp.avail := by
    intro ksp hk
    have : (ksp.contents, ksp.avail) ∈ pool2.map (fun k => (k.contents, k.avail)) :=
      List.mem_map_of_mem _ hk
    rw [h] at this
    obtain ⟨ksp0, hk0, heq⟩ := List.mem_map.mp this
    exact ⟨ksp0, hk0, congrArg Prod.fst heq, congrArg Prod.snd heq⟩
  refine ⟨?_, ?_, ?_, hIO⟩
  · intro ksp hk
    obtain ⟨ksp0, hk0, hc, ha⟩ := hmem ksp hk
    have := hbal ksp0 hk0
    rw [hc, ha] at this
    exact this
  · intro ksp hk n hn
    obtain ⟨ksp0, hk0, hc, _⟩ := hmem ksp hk
    exact hCV ksp0 hk0 n (by rw [hc]; exact hn)
  · intro n
    have hcontents : pool2.map (fun k => k.contents)
        = st.small_pool.map (fun k => k.contents) := by
      have := congrArg (List.map Prod.fst) h
      simpa [List.map_map, Function.comp] using this
    show occCount pool2 n ≤ 1
    have : occCount pool2 n = occCount st.small_pool n := by
      unfold occCount
      rw [show (fun (ksp : KeySmallPool) => ksp.contents.count n)
          = (fun (c : List String) => c.count n) ∘ (fun ksp => ksp.contents) from rfl]
      rw [← List.map_map, ← List.map_map, hcontents]
    rw [this]
    exact hND n

/-- The per-slot packing loop of `sync_small_pool` preserves the invariant
on the key map: each repacked key keeps its reservation, becomes valid, and
its rewritten `start` stays classified inside slot `i` of this
dictionary's small-pool region. -/
theorem dinv_syncContents (st0 : DictCacheEntry) (i : Nat) (hiM : i < MAXSLOTS) :
    ∀ (cs : List String) (page : List Nat) (po : Nat)
      (keys : List (String × KeyCacheEntry)) (out : List Nat × Nat × List (String × KeyCacheEntry)),
    syncContents (st0.index * SMALL_POOL_STRIDE + SMALL_POOL_START + i * SMALL_CAPACITY)
      cs page po keys = .ok out →
    DInv { st0 with keys := keys } →
    po + slotSum keys cs ≤ SMALL_CAPACITY →
    DInv { st0 with keys := out.2.2 } := by
  intro cs
  induction cs with
  | nil =>
      intro page po keys out h hinv _
      injection h with h
      subst h
      exact hinv
  | cons n cs ih =>
      intro page po keys out h hinv hbound
      unfold syncContents at h
      cases hkm : kmGet keys n with
      | none => rw [hkm] at h; exact absurd h (by simp)
      | some kcache =>
          rw [hkm] at h
          simp only [] at h
          cases hkd : kcache.data with
          | none => rw [hkd] at h; exact absurd h (by simp)
          | some d =>
              rw [hkd] at h
              simp only [] at h
              split at h
              case isFalse => exact absurd h (by simp)
              case isTrue hsl =>
                have hressum : kcache.reserved + slotSum keys cs = slotSum keys (n :: cs) := by
                  rw [slotSum_cons]
                  unfold reservedOf
                  rw [hkm]
                have hkmput : DInv { st0 with
                    keys := kmPut keys n
                              { kcache with
                                start := st0.index * SMALL_POOL_STRIDE + SMALL_POOL_START +
                                  i * SMALL_CAPACITY + po,
                                age := satAdd1 kcache.age, clean := false,
                                flags := { valid := true, unresolved := false },
                                data := some { clean := true, data := d.data } } } := by
                  refine dinv_kmPut_same { st0 with keys := keys } n _ hinv ?_ rfl ?_
                  · show kcache.reserved = reservedOf keys n
                    unfold reservedOf
                    rw [hkm]
                  · show (small_storage_index_from_key
                      { kcache with
                        start := st0.index * SMALL_POOL_STRIDE + SMALL_POOL_START +
                          i * SMALL_CAPACITY + po,
                        age := satAdd1 kcache.age, clean := false,
                        flags := { valid := true, unresolved := false },
                        data := some { clean := true, data := d.data } }
                      st0.index).isSome = true
                    unfold small_storage_index_from_key
                    rw [if_pos]
                    · rfl
                    · constructor
                      · show st0.index * SMALL_POOL_STRIDE + SMALL_POOL_START ≤
                          st0.index * SMALL_POOL_STRIDE + SMALL_POOL_START +
                            i * SMALL_CAPACITY + po
                        omega
                      · show st0.index * SMALL_POOL_STRIDE + SMALL_POOL_START +
                          i * SMALL_CAPACITY + po + kcache.reserved
                          < st0.index * SMALL_POOL_STRIDE + SMALL_POOL_START +
                            SMALL_POOL_STRIDE
                        have h1 : kcache.reserved ≤ slotSum keys (n :: cs) := by
                          rw [← hressum]
                          omega
                        have h2 : (i + 1) * SMALL_CAPACITY ≤ MAXSLOTS * SMALL_CAPACITY :=
                          Nat.mul_le_mul_right _ hiM
                        have h3 := maxslots_mul_lt
                        have h4 : (i + 1) * SMALL_CAPACITY
                            = i * SMALL_CAPACITY + SMALL_CAPACITY := by ring
                        omega
                refine ih _ _ _ _ h hkmput ?_
                show po + kcache.reserved +
                    slotSum (kmPut keys n _) cs ≤ SMALL_CAPACITY
                rw [slotSum_kmPut_same_reserved]
                · omega
                · show kcache.reserved = reservedOf keys n
                  unfold reservedOf
                  rw [hkm]

/-- `syncSlots` rewrites clean bits but keeps every slot's contents and
avail. -/
theorem syncSlots_shape (d : Nat) :
    ∀ (slots : List KeySmallPool) (idx : Nat) (hw : Hw) (v2p : V2P)
      (keys : List (String × KeyCacheEntry))
      (out : List KeySmallPool × Hw × V2P × List (String × KeyCacheEntry)),
    syncSlots d slots idx hw v2p keys = .ok out →
    out.1.map (fun k => (k.contents, k.avail))
      = slots.map (fun k => (k.contents, k.avail)) := by
  intro slots
  induction slots with
  | nil =>
      intro idx hw v2p keys out h
      injection h with h
      subst h
      rfl
  | cons entry rest ih =>
      intro idx hw v2p keys out h
      unfold syncSlots at h
      split at h
      case isTrue =>
        simp only [] at h
        split at h
        case h_1 => exact absurd h (by simp)
        case h_2 pp hw2 v2p2 heq =>
          split at h
          case h_1 => exact absurd h (by simp)
          case h_2 page2 mid keys2 heq2 =>
            split at h
            case h_1 rest2 hw4 v2p4 keys4 heq3 =>
              injection h with h
              subst h
              simp [ih _ _ _ _ _ heq3]
            case h_2 => exact absurd h (by simp)
      case isFalse =>
        split at h
        case h_1 rest2 hw2 v2p2 keys2 heq =>
          injection h with h
          subst h
          simp [ih _ _ _ _ _ heq]
        case h_2 => exact absurd h (by simp)

/-- `syncSlots`, run on the tail of the pool starting at slot `idx`,
preserves the invariant on the key map. -/
theorem dinv_syncSlots_keys (st0 : DictCacheEntry)
    (hlenM : st0.small_pool.length ≤ MAXSLOTS) :
    ∀ (slots : List KeySmallPool) (idx : Nat) (hw : Hw) (v2p : V2P)
      (keys : List (String × KeyCacheEntry))
      (out : List KeySmallPool × Hw × V2P × List (String × KeyCacheEntry)),
    slots = st0.small_pool.drop idx →
    syncSlots st0.index slots idx hw v2p keys = .ok out →
    DInv { st0 with keys := keys } →
    DInv { st0 with keys := out.2.2.2 } := by
  intro slots
  induction slots with
  | nil =>
      intro idx hw v2p keys out _ h hinv
      injection h with h
      subst h
      exact hinv
  | cons entry rest ih =>
      intro idx hw v2p keys out hdrop h hinv
      have hidxlt : idx < st0.small_pool.length := by
        by_contra hge
        rw [List.drop_eq_nil_of_le (by omega)] at hdrop
        exact absurd hdrop (by simp)
      have hdrop2 : st0.small_pool.drop idx
          = st0.small_pool.get ⟨idx, hidxlt⟩ :: st0.small_pool.drop (idx + 1) :=
        List.drop_eq_get_cons hidxlt
      rw [hdrop2] at hdrop
      have hentry : entry = st0.small_pool.get ⟨idx, hidxlt⟩ :=
        (List.cons.injEq _ _ _ _ ▸ hdrop).1
      have hrest : rest = st0.small_pool.drop (idx + 1) :=
        (List.cons.injEq _ _ _ _ ▸ hdrop).2
      unfold syncSlots at h
      split at h
      case isTrue =>
        simp only [] at h
        split at h
        case h_1 => exact absurd h (by simp)
        case h_2 pp hw2 v2p2 heq =>
          split at h
          case h_1 => exact absurd h (by simp)
          case h_2 page2 mid keys2 heq2 =>
            have hkeys2 : DInv { st0 with keys := keys2 } := by
              have hbound : (0 : Nat) + slotSum keys entry.contents ≤ SMALL_CAPACITY := by
                have hb : slotSum keys entry.contents + entry.avail = SMALL_CAPACITY :=
                  hinv.1 entry (by
                    rw [hentry]
                    exact List.get_mem _ _ _)
                omega
              have := dinv_syncContents st0 idx (by omega) entry.contents
                (zeros (VPAGE_SIZE + JOURNAL_SIZE)) 0 keys (page2, mid, keys2)
                heq2 hinv hbound
              exact this
            split at h
            case h_1 rest2 hw4 v2p4 keys4 heq3 =>
              injection h with h
              subst h
              exact ih (idx + 1) _ v2p2 keys2 (rest2, hw4, v2p4, keys4) hrest heq3 hkeys2
            case h_2 => exact absurd h (by simp)
      case isFalse =>
        split at h
        case h_1 rest2 hw2 v2p2 keys2 heq =>
          injection h with h
          subst h
          exact ih (idx + 1) hw v2p keys (rest2, hw2, v2p2, keys2) hrest heq hinv
        case h_2 => exact absurd h (by simp)

/-- `sync_small_pool` preserves the invariant when the pool fits the
dictionary's small-pool region. -/
theorem dinv_sync_small_pool (hw : Hw) (v2p : V2P) (st : DictCacheEntry)
    (out : Hw × V2P × DictCacheEntry)
    (hinv : DInv st) (hlenM : st.small_pool.length ≤ MAXSLOTS)
    (h : sync_small_pool hw v2p st = .ok out) : DInv out.2.2 := by
  unfold sync_small_pool at h
  split at h
  case h_1 pool2 hw2 v2p2 keys2 heq =>
    injection h with h
    subst h
    have hkeys : DInv { st with keys := keys2 } :=
      dinv_syncSlots_keys st hlenM st.small_pool 0 hw v2p st.keys
        (pool2, hw2, v2p2, keys2) (by simp) heq hinv
    have hshape := syncSlots_shape st.index st.small_pool 0 hw v2p st.keys
      (pool2, hw2, v2p2, keys2) heq
    have := dinv_pool_contents_eq { st with keys := keys2 } pool2 hshape hkeys
    exact this
  case h_2 => exact absurd h (by simp)

/-- A successful `findIdx?` scan from start `s` returns a position at or
past `s` whose element satisfies the predicate. -/
theorem findIdxGo_spec (p : String → Bool) : ∀ (l : List String) (s i : Nat),
    List.findIdx? p l s = some i →
    s ≤ i ∧ ∃ h : i - s < l.length, p (l.get ⟨i - s, h⟩) = true := by
  intro l
  induction l with
  | nil =>
      intro s i h
      simp [List.findIdx?] at h
  | cons a rest ih =>
      intro s i h
      rw [List.findIdx?_cons] at h
      by_cases hp : p a
      · rw [if_pos hp] at h
        injection h with h
        subst h
        constructor
        · exact Nat.le_refl s
        · rw [Nat.sub_self]
          exact ⟨by simp, hp⟩
      · rw [if_neg hp] at h
        obtain ⟨hle, hlt, hget⟩ := ih (s + 1) i h
        refine ⟨by omega, ?_⟩
        obtain ⟨k, hk⟩ : ∃ k, i - s = k + 1 := ⟨i - (s + 1), by omega⟩
        rw [hk]
        have hk2 : k = i - (s + 1) := by omega
        subst hk2
        exact ⟨by simpa using hlt, hget⟩

/-- A successful `findIdx?` returns a valid position whose element
satisfies the predicate. -/
theorem findIdx?_spec (p : String → Bool) : ∀ (l : List String) (i : Nat),
    List.findIdx? p l = some i →
    ∃ h : i < l.length, p (l.get ⟨i, h⟩) = true := by
  intro l i h
  obtain ⟨_, hlt, hget⟩ := findIdxGo_spec p l 0 i h
  exact ⟨hlt, hget⟩

/-- The frame of a successful `try_fill_small_key`: only the pool can
change, and the returned key record differs from the input only in its
cached data. -/
theorem try_fill_shape (hw : Hw) (v2p : V2P) (st st2 : DictCacheEntry)
    (kc kc2 : KeyCacheEntry) (name : String)
    (h : try_fill_small_key hw v2p st kc name = .ok (st2, kc2)) :
    kc2.flags = kc.flags ∧ st2.keys = st.keys ∧ st2.index = st.index := by
  unfold try_fill_small_key at h
  cases hidx0 : small_storage_index_from_key kc st.index with
  | none =>
      rw [hidx0] at h
      injection h with h
      injection h with h1 h2
      subst h1
      subst h2
      exact ⟨rfl, rfl, rfl⟩
  | some pi =>
      rw [hidx0] at h
      split at h
      case h_1 heq => cases heq
      case h_2 pool_index heq =>
        injection heq with heq
        subst heq
        simp only [] at h
        split at h
        · exact absurd h (by simp)
        split at h
        · exact absurd h (by simp)
        split at h
        · exact absurd h (by simp)
        cases hrd : readDataPage hw v2p (kc.start / VPAGE_SIZE * VPAGE_SIZE) with
        | none =>
            rw [hrd] at h
            simp only [] at h
            injection h with h
            injection h with ha hb
            subst hb
            exact ⟨rfl, by rw [← ha], by rw [← ha]⟩
        | some page =>
            rw [hrd] at h
            simp only [] at h
            split at h
            case h_1 bytes hsl =>
              injection h with h
              injection h with ha hb
              subst hb
              exact ⟨rfl, by rw [← ha], by rw [← ha]⟩
            case h_2 e hsl => exact absurd h (by simp)

/-- The disk scan of `ensure_key_entry` preserves the invariant; a failed
search leaves the cache untouched, and a successful one leaves a valid
record under the searched name. -/
theorem ensureScan_ok (hw : Hw) (v2p : V2P) (name : String) :
    ∀ (fuel : Nat) (st : DictCacheEntry) (te seen : Nat) (st2 : DictCacheEntry)
      (b : Bool),
    ensureScan hw v2p name fuel st te seen = .ok (st2, b) →
    DInv st → kmGet st.keys name = none →
    DInv st2 ∧ (b = false → st2 = st) ∧
    (b = true → ∃ k, kmGet st2.keys name = some k ∧ k.flags.valid = true) := by
  intro fuel
  induction fuel with
  | zero =>
      intro st te seen st2 b h hinv hnone
      unfold ensureScan at h
      injection h with h
      injection h with h1 h2
      subst h1
      subst h2
      exact ⟨hinv, fun _ => rfl, fun hc => by simp at hc⟩
  | succ fuel ih =>
      intro st te seen st2 b h hinv hnone
      unfold ensureScan at h
      split at h
      case isFalse =>
        injection h with h
        injection h with h1 h2
        subst h1
        subst h2
        exact ⟨hinv, fun _ => rfl, fun hc => by simp at hc⟩
      case isTrue hcond =>
        cases hdp : hw.descPages (te / DK_PER_VPAGE) with
        | none =>
            rw [hdp] at h
            exact ih st _ _ st2 b h hinv hnone
        | some pageF =>
            rw [hdp] at h
            simp only [] at h
            split at h
            case isTrue hv =>
              split at h
              case isTrue hn =>
                split at h
                case h_1 stt kc2 heq =>
                  injection h with h
                  injection h with h1 h2
                  subst h1
                  subst h2
                  have habs := not_in_contents_of_invalid st hinv.2.1 name
                    (fun k hk _ => by rw [hnone] at hk; exact absurd hk (by simp))
                  have hd := dinv_try_fill hw v2p st stt _ kc2 name hinv habs hv heq
                  have hsh := try_fill_shape hw v2p st stt _ kc2 name heq
                  refine ⟨hd, fun hc => by simp at hc, fun _ => ?_⟩
                  refine ⟨kc2, kmGet_kmPut_self _ _ _, ?_⟩
                  rw [hsh.1]
                  exact hv
                case h_2 e heq => exact absurd h (by simp)
              case isFalse => exact ih st _ _ st2 b h hinv hnone
            case isFalse => exact ih st _ _ st2 b h hinv hnone

/-- `ensure_key_entry` preserves the invariant; `false` means the cache is
unchanged and the name has no valid record, `true` means a valid record is
cached under the name. -/
theorem ensure_ok (hw : Hw) (v2p : V2P) (st : DictCacheEntry) (name : String)
    (st2 : DictCacheEntry) (b : Bool)
    (h : ensure_key_entry hw v2p st name = .ok (st2, b)) (hinv : DInv st) :
    DInv st2 ∧
    (b = false → st2 = st ∧ ∀ k, kmGet st.keys name = some k → k.flags.valid = false) ∧
    (b = true → ∃ k, kmGet st2.keys name = some k ∧ k.flags.valid = true) := by
  unfold ensure_key_entry at h
  cases hkm : kmGet st.keys name with
  | some k =>
      rw [hkm] at h
      injection h with h
      injection h with h1 h2
      subst h1
      subst h2
      refine ⟨hinv, fun hb => ⟨rfl, fun k2 hk2 => ?_⟩, fun hb => ⟨k, hkm, hb⟩⟩
      injection hk2 with hk2
      subst hk2
      exact hb
  | none =>
      rw [hkm] at h
      obtain ⟨hd, hf, ht⟩ := ensureScan_ok hw v2p name _ st 1 0 st2 b h hinv hkm
      exact ⟨hd, fun hb => ⟨hf hb, fun k hk => by cases hk⟩, ht⟩

/-- The disk scan of `fill` preserves the invariant. -/
theorem fillScan_pres (hw : Hw) (v2p : V2P) :
    ∀ (fuel : Nat) (st : DictCacheEntry) (te seen atop : Nat)
      (out : DictCacheEntry × Nat × Nat),
    fillScan hw v2p fuel st te seen atop = .ok out → DInv st → DInv out.1 := by
  intro fuel
  induction fuel with
  | zero =>
      intro st te seen atop out h hinv
      unfold fillScan at h
      injection h with h
      subst h
      exact hinv
  | succ fuel ih =>
      intro st te seen atop out h hinv
      unfold fillScan at h
      split at h
      case isFalse =>
        injection h with h
        subst h
        exact hinv
      case isTrue hcond =>
        cases hdp : hw.descPages (te / DK_PER_VPAGE) with
        | none =>
            rw [hdp] at h
            exact ih st _ _ _ out h hinv
        | some pageF =>
            rw [hdp] at h
            simp only [] at h
            split at h
            case isTrue hv =>
              split at h
              case isTrue hfresh =>
                have hnone : kmGet st.keys (pageF (te % DK_PER_VPAGE)).name = none := by
                  cases hx : kmGet st.keys (pageF (te % DK_PER_VPAGE)).name with
                  | none => rfl
                  | some k => rw [hx] at hfresh; simp at hfresh
                have habs := not_in_contents_of_invalid st hinv.2.1
                  (pageF (te % DK_PER_VPAGE)).name
                  (fun k hk _ => by rw [hnone] at hk; exact absurd hk (by simp))
                split at h
                case isTrue halloc =>
                  exact ih _ _ _ _ out h (dinv_kmPut_absent st _ _ hinv habs)
                case isFalse halloc =>
                  split at h
                  case h_1 stt kc2 heq =>
                    exact ih _ _ _ _ out h
                      (dinv_try_fill hw v2p st stt _ kc2 _ hinv habs hv heq)
                  case h_2 e heq => exact absurd h (by simp)
              case isFalse => exact ih st _ _ _ out h hinv
            case isFalse => exact ih st _ _ _ out h hinv

/-- `fill` preserves the invariant. -/
theorem dinv_fill (hw : Hw) (v2p : V2P) (st : DictCacheEntry)
    (out : DictCacheEntry × Nat) (h : fill hw v2p st = .ok out) (hinv : DInv st) :
    DInv out.1 := by
  unfold fill at h
  split at h
  case h_1 st2 fin atop heq =>
    injection h with h
    subst h
    exact fillScan_pres hw v2p _ st 1 0 LARGE_POOL_START (st2, fin, atop) heq hinv
  case h_2 => exact absurd h (by simp)

/-- `key_list` preserves the invariant. -/
theorem dinv_key_list (hw : Hw) (v2p : V2P) (st : DictCacheEntry)
    (out : DictCacheEntry × List String) (h : key_list hw v2p st = .ok out)
    (hinv : DInv st) : DInv out.1 := by
  unfold key_list at h
  split at h
  case isTrue =>
    split at h
    case h_1 st2 atop heq =>
      injection h with h
      subst h
      exact dinv_fill hw v2p st (st2, atop) heq hinv
    case h_2 => exact absurd h (by simp)
  case isFalse =>
    injection h with h
    subst h
    exact hinv

/-- A successful `put_free_key_index` changes only the free-index heap. -/
theorem put_free_shape (st : DictCacheEntry) (x : Nat) (st3 : DictCacheEntry)
    (h : put_free_key_index st x = .ok st3) :
    ∃ fk, st3 = { st with free_keys := fk } := by
  unfold put_free_key_index at h
  split at h
  case h_1 fk heq =>
    injection h with h
    exact ⟨fk, h.symm⟩
  case h_2 => exact absurd h (by simp)

/-- `key_remove` preserves the invariant. -/
theorem dinv_key_remove (hw : Hw) (v2p : V2P) (st : DictCacheEntry) (name : String)
    (paranoid : Bool) (out : Hw × V2P × DictCacheEntry)
    (h : key_remove hw v2p st name paranoid = .ok out) (hinv : DInv st) :
    DInv out.2.2 := by
  unfold key_remove at h
  cases hens : ensure_key_entry hw v2p st name with
  | error e =>
      rw [hens] at h
      exact absurd h (by simp)
  | ok p =>
    obtain ⟨st1, b⟩ := p
    rw [hens] at h
    simp only [] at h
    obtain ⟨hinv1, _, _⟩ := ensure_ok hw v2p st name st1 b hens hinv
    cases hkm : kmGet st1.keys name with
    | none =>
        rw [hkm] at h
        injection h with h
        subst h
        exact hinv1
    | some kcache =>
        rw [hkm] at h
        simp only [] at h
        cases hsi : small_storage_index_from_key kcache st1.index with
        | some si =>
            rw [hsi] at h
            simp only [] at h
            split at h
            case isFalse => exact absurd h (by simp)
            case isTrue hlt =>
              split at h
              case h_1 => exact absurd h (by simp)
              case h_2 pos hfind =>
                split at h
                case isTrue => exact absurd h (by simp)
                case isFalse hres =>
                  split at h
                  case isTrue => exact absurd h (by simp)
                  case isFalse hcap =>
                    split at h
                    case h_2 => exact absurd h (by simp)
                    case h_1 st3 hput =>
                      injection h with h
                      subst h
                      obtain ⟨hpos, hget⟩ := findIdx?_spec _ _ pos hfind
                      have hname : (({ st1 with clean := false } :
                          DictCacheEntry).small_pool.get ⟨si, hlt⟩).contents.get
                            ⟨pos, hpos⟩ = name := by
                        simpa using hget
                      have hrm := dinv_remove_slot { st1 with clean := false } si name
                        kcache
                        { kcache with clean := false, age := satAdd1 kcache.age, flags := { kcache.flags with valid := false } }
                        hinv1 hlt pos hpos hname hkm rfl
                      obtain ⟨fk, hfk⟩ := put_free_shape _ _ _ hput
                      subst hfk
                      exact hrm
        | none =>
            rw [hsi] at h
            simp only [] at h
            split at h
            case h_2 => exact absurd h (by simp)
            case h_1 st3 hput =>
              injection h with h
              subst h
              have habs : ∀ ksp ∈ ({ st1 with clean := false } :
                  DictCacheEntry).small_pool, ¬ name ∈ ksp.contents := by
                intro ksp hk hn
                obtain ⟨k0, h1, h2, h3⟩ := hinv1.2.1 ksp hk name hn
                rw [hkm] at h1
                injection h1 with h1
                subst h1
                rw [hsi] at h3
                simp at h3
              have hrm := dinv_kmPut_absent { st1 with clean := false } name
                { kcache with clean := false, age := satAdd1 kcache.age, flags := { kcache.flags with valid := false } }
                hinv1 habs
              obtain ⟨fk, hfk⟩ := put_free_shape _ _ _ hput
              subst hfk
              exact hrm

/-- `get_free_key_index` changes only the free-index heap and the
brute-force search bound. -/
theorem get_free_shape (s : DictCacheEntry) :
    ∃ fk ld, (get_free_key_index s).2
      = { s with free_keys := fk, last_disk_key_index := ld } := by
  unfold get_free_key_index
  cases s.free_keys with
  | nil => exact ⟨s.free_keys, s.last_disk_key_index, rfl⟩
  | cons fk rest => exact ⟨_, _, rfl⟩

/-- The in-place small-key update arm preserves the invariant. -/
theorem dinv_smallUpdate (hw : Hw) (v2p : V2P) (st : DictCacheEntry) (name : String)
    (kcache : KeyCacheEntry) (data : List Nat) (offset : Nat)
    (out : Hw × V2P × DictCacheEntry)
    (h : smallUpdate hw v2p st name kcache data offset = .ok out)
    (hinv : DInv st)
    (hkm : kmGet st.keys name = some kcache)
    (hval : kcache.flags.valid = true) :
    DInv out.2.2 := by
  unfold smallUpdate at h
  cases hkd : kcache.data with
  | none => rw [hkd] at h; exact absurd h (by simp)
  | some cache_data =>
      rw [hkd] at h
      simp only [] at h
      cases hsi : small_storage_index_from_key { kcache with data := some { clean := false, data := overlay (cache_data.data ++ zeros (data.length + offset - cache_data.data.length)) offset data } } st.index with
      | none => rw [hsi] at h; exact absurd h (by simp)
      | some pool_index =>
          rw [hsi] at h
          simp only [] at h
          split at h
          case isFalse => exact absurd h (by simp)
          case isTrue hlt =>
            injection h with h
            subst h
            have hstepA : DInv { st with keys := kmPut st.keys name { kcache with data := some { clean := false, data := overlay (cache_data.data ++ zeros (data.length + offset - cache_data.data.length)) offset data } } } := by
              refine dinv_kmPut_same st name _ hinv ?_ hval ?_
              · show kcache.reserved = reservedOf st.keys name
                unfold reservedOf
                rw [hkm]
              · rw [hsi]
                rfl
            exact dinv_set_clean _ pool_index false hstepA
              (by simpa using hlt)

/-- The in-place large-key update arm preserves the invariant: the key is
address-classified large, hence listed in no slot, so rewriting its record
(even with a truncated reservation) touches no slot sum. -/
theorem dinv_largeUpdate (hw : Hw) (v2p : V2P) (st : DictCacheEntry) (name : String)
    (kcache : KeyCacheEntry) (data : List Nat) (offset : Nat) (truncate : Bool)
    (out : Hw × V2P × DictCacheEntry)
    (h : largeUpdate hw v2p st name kcache data offset truncate = .ok out)
    (hinv : DInv st)
    (hkm : kmGet st.keys name = some kcache)
    (hbig : ¬ kcache.start < SMALL_POOL_END) :
    DInv out.2.2 := by
  have habs : ∀ ksp ∈ st.small_pool, ¬ name ∈ ksp.contents := by
    intro ksp hk hn
    obtain ⟨k0, h1, h2, h3⟩ := hinv.2.1 ksp hk name hn
    rw [hkm] at h1
    injection h1 with h1
    subst h1
    exact hbig (start_lt_end_of_index_isSome kcache st.index hinv.2.2.2 h3)
  unfold largeUpdate at h
  simp only [] at h
  split at h
  · exact absurd h (by simp)
  · split at h
    · exact absurd h (by simp)
    · split at h
      · exact absurd h (by simp)
      · split at h
        · split at h
          · exact absurd h (by simp)
          · split at h
            · injection h with h
              subst h
              exact dinv_kmPut_absent st name _ hinv habs
            · injection h with h
              subst h
              exact dinv_kmPut_absent st name _ hinv habs
        · injection h with h
          subst h
          exact dinv_kmPut_absent st name _ hinv habs

/-- `get_free_key_index` keeps the key map, the slot pool and the
dictionary index. -/
theorem get_free_keys_pool (s : DictCacheEntry) (o : Option Nat) (s2 : DictCacheEntry)
    (h : get_free_key_index s = (o, s2)) :
    s2.keys = s.keys ∧ s2.small_pool = s.small_pool ∧ s2.index = s.index := by
  unfold get_free_key_index at h
  cases hf : s.free_keys with
  | nil =>
      rw [hf] at h
      injection h with h1 h2
      subst h2
      exact ⟨rfl, rfl, rfl⟩
  | cons fk rest =>
      rw [hf] at h
      simp only [] at h
      injection h with h1 h2
      subst h2
      exact ⟨rfl, rfl, rfl⟩

/-- The invariant only reads a state's key map, slot pool and dictionary
index. -/
theorem dinv_of_components (a b : DictCacheEntry)
    (hk : b.keys = a.keys) (hp : b.small_pool = a.small_pool)
    (hi : b.index = a.index) (h : DInv a) : DInv b := by
  obtain ⟨h1, h2, h3, h4⟩ := h
  refine ⟨?_, ?_, ?_, ?_⟩
  · intro ksp hm
    rw [hk]
    exact h1 ksp (by rw [← hp]; exact hm)
  · intro ksp hm n hn
    obtain ⟨k0, hk0, hv0, hs0⟩ := h2 ksp (by rw [← hp]; exact hm) n hn
    exact ⟨k0, by rw [hk]; exact hk0, hv0, by rw [hi]; exact hs0⟩
  · intro n
    show occCount b.small_pool n ≤ 1
    rw [hp]
    exact h3 n
  · show INDEX_OK b.index
    rw [hi]
    exact h4

/-- The slot-placement and index-allocation tail of the small-key creation
arm preserves the invariant when the call succeeds. -/
theorem dinv_smallCreateCore (hw : Hw) (v2p : V2P) (st1 : DictCacheEntry)
    (name : String) (data : List Nat) (offset : Nat) (alloc_hint : Option Nat)
    (ptr : Nat) (out : Sys) (r : Nat)
    (h : smallCreateCore hw v2p st1 name data offset alloc_hint ptr = .ok out r)
    (hinv : DInv st1)
    (hninv : ∀ k, kmGet st1.keys name = some k → k.flags.valid = false)
    (hsmall : data.length + offset < SMALL_CAPACITY ∧
      alloc_hint.getD 0 < SMALL_CAPACITY)
    (hlen : out.dce.small_pool.length ≤ MAXSLOTS) :
    DInv out.dce := by
  have habs := not_in_contents_of_invalid st1 hinv.2.1 name
    (fun k hk hv => by rw [hninv k hk] at hv; cases hv)
  have hDV : DICT_VSIZE = SMALL_POOL_STRIDE := rfl
  unfold smallCreateCore at h
  split at h
  case h_1 => exact absurd h (by simp)
  case h_2 pool_candidate heap2 hpop =>
    simp only [] at h
    generalize hres : (if alloc_hint.getD 0 > data.length + offset then alloc_hint.getD 0 else data.length + offset) = resv at h
    have hreslt : resv < SMALL_CAPACITY := by
      rw [← hres]
      split
      · exact hsmall.2
      · exact hsmall.1
    split at h
    case h_1 => exact absurd h (by simp)
    case h_2 st3 slotIndex heq =>
      split at heq
      case isTrue hfit =>
        split at heq
        case isFalse => exact absurd heq (by simp)
        case isTrue hi2 =>
          split at heq
          case isFalse => exact absurd heq (by simp)
          case isTrue hfit2 =>
            injection heq with heq0
            injection heq0 with heq1 heq2
            subst heq1
            subst heq2
            split at h
            · exact absurd h (by simp)
            rename_i di st2 hgf
            injection h with h1 h2
            subst h1
            obtain ⟨hker, hpoolr, hidxr⟩ := get_free_keys_pool _ _ _ hgf
            simp only [] at hker hpoolr hidxr
            simp only [] at hlen
            rw [hpoolr, List.length_set] at hlen
            refine dinv_of_components
              { st1 with
                small_pool := st1.small_pool.set pool_candidate.2
                                { contents := (st1.small_pool.get ⟨pool_candidate.2, hi2⟩).contents ++ [name],
                                  avail := (st1.small_pool.get ⟨pool_candidate.2, hi2⟩).avail - resv,
                                  clean := false }
                keys := kmPut st1.keys name
                          { start := SMALL_POOL_START + st1.index * DICT_VSIZE + pool_candidate.2 * SMALL_CAPACITY,
                            len := data.length + offset, reserved := resv,
                            flags := { valid := true, unresolved := true },
                            age := 0, descriptor_index := di, clean := false,
                            data := some { clean := false, data := zeros offset ++ data } } }
              _ ?_ ?_ ?_ ?_
            · show kmPut st2.keys name _ = kmPut st1.keys name _
              rw [hker, hidxr]
            · show st2.small_pool = _
              rw [hpoolr]
            · show st2.index = st1.index
              exact hidxr
            · refine dinv_insert st1 pool_candidate.2 name _ false hinv hi2 habs
                (by exact hfit2) rfl ?_
              show (small_storage_index_from_key _ st1.index).isSome = true
              unfold small_storage_index_from_key
              rw [if_pos]
              · rfl
              · constructor
                · show st1.index * SMALL_POOL_STRIDE + SMALL_POOL_START ≤
                    SMALL_POOL_START + st1.index * DICT_VSIZE +
                      pool_candidate.2 * SMALL_CAPACITY
                  rw [hDV]
                  omega
                · show SMALL_POOL_START + st1.index * DICT_VSIZE +
                      pool_candidate.2 * SMALL_CAPACITY + resv
                    < st1.index * SMALL_POOL_STRIDE + SMALL_POOL_START +
                      SMALL_POOL_STRIDE
                  rw [hDV]
                  have hm2 : (pool_candidate.2 + 1) * SMALL_CAPACITY
                      ≤ MAXSLOTS * SMALL_CAPACITY :=
                    Nat.mul_le_mul_right _ (by omega)
                  have hm3 := maxslots_mul_lt
                  have hm4 : (pool_candidate.2 + 1) * SMALL_CAPACITY
                      = pool_candidate.2 * SMALL_CAPACITY + SMALL_CAPACITY := by ring
                  omega
      case isFalse hfit =>
        split at heq
        case isFalse => exact absurd heq (by simp)
        case isTrue hcap =>
          injection heq with heq0
          injection heq0 with heq1 heq2
          subst heq1
          subst heq2
          split at h
          · exact absurd h (by simp)
          rename_i di st2 hgf
          injection h with h1 h2
          subst h1
          obtain ⟨hker, hpoolr, hidxr⟩ := get_free_keys_pool _ _ _ hgf
          simp only [] at hker hpoolr hidxr
          simp only [] at hlen
          rw [hpoolr] at hlen
          have hlen1 : st1.small_pool.length + 1 ≤ MAXSLOTS := by
            simpa using hlen
          refine dinv_of_components
            { st1 with
              small_pool := st1.small_pool ++
                [{ contents := [name], avail := SMALL_CAPACITY - resv, clean := false }]
              keys := kmPut st1.keys name
                        { start := SMALL_POOL_START + st1.index * DICT_VSIZE + st1.small_pool.length * SMALL_CAPACITY,
                          len := data.length + offset, reserved := resv,
                          flags := { valid := true, unresolved := true },
                          age := 0, descriptor_index := di, clean := false,
                          data := some { clean := false, data := zeros offset ++ data } } }
            _ ?_ ?_ ?_ ?_
          · show kmPut st2.keys name _ = kmPut st1.keys name _
            rw [hker, hidxr]
          · show st2.small_pool = _
            rw [hpoolr]
          · show st2.index = st1.index
            exact hidxr
          · refine dinv_append_slot st1 name _ false hinv habs (Nat.le_of_lt hreslt) rfl ?_
            show (small_storage_index_from_key _ st1.index).isSome = true
            unfold small_storage_index_from_key
            rw [if_pos]
            · rfl
            · constructor
              · show st1.index * SMALL_POOL_STRIDE + SMALL_POOL_START ≤
                  SMALL_POOL_START + st1.index * DICT_VSIZE +
                    st1.small_pool.length * SMALL_CAPACITY
                rw [hDV]
                omega
              · show SMALL_POOL_START + st1.index * DICT_VSIZE +
                    st1.small_pool.length * SMALL_CAPACITY + resv
                  < st1.index * SMALL_POOL_STRIDE + SMALL_POOL_START +
                    SMALL_POOL_STRIDE
                rw [hDV]
                have hm2 : (st1.small_pool.length + 1) * SMALL_CAPACITY
                    ≤ MAXSLOTS * SMALL_CAPACITY :=
                  Nat.mul_le_mul_right _ hlen1
                have hm3 := maxslots_mul_lt
                have hm4 : (st1.small_pool.length + 1) * SMALL_CAPACITY
                    = st1.small_pool.length * SMALL_CAPACITY + SMALL_CAPACITY := by
                  ring
                omega

/-- `rebuild_free_pool` touches only the free-slot heap, which the
invariant does not constrain. -/
theorem dinv_rebuild (st : DictCacheEntry) (hinv : DInv st) :
    DInv (rebuild_free_pool st) :=
  hinv

/-- The whole small-key creation arm (slot normalisation included)
preserves the invariant when the call succeeds. -/
theorem dinv_smallCreate (hw : Hw) (v2p : V2P) (st : DictCacheEntry)
    (name : String) (data : List Nat) (offset : Nat) (alloc_hint : Option Nat)
    (ptr : Nat) (out : Sys) (r : Nat)
    (h : smallCreate hw v2p st name data offset alloc_hint ptr = .ok out r)
    (hinv : DInv st)
    (hninv : ∀ k, kmGet st.keys name = some k → k.flags.valid = false)
    (hsmall : data.length + offset < SMALL_CAPACITY ∧
      alloc_hint.getD 0 < SMALL_CAPACITY)
    (hlen : out.dce.small_pool.length ≤ MAXSLOTS) :
    DInv out.dce := by
  unfold smallCreate at h
  split at h
  case isTrue hz =>
    have hsp : st.small_pool = [] := List.length_eq_zero.mp hz
    refine dinv_smallCreateCore hw v2p _ name data offset alloc_hint ptr out r h
      ?_ (fun k hk => hninv k hk) hsmall hlen
    have h1 : DInv { st with small_pool := growPool st.small_pool 1 } :=
      dinv_grow st 1 hinv
    rw [hsp] at h1
    exact dinv_rebuild _ h1
  case isFalse hz =>
    exact dinv_smallCreateCore hw v2p st name data offset alloc_hint ptr out r h
      hinv hninv hsmall hlen

/-- `key_update` (at any recursion fuel) preserves the invariant when the
call succeeds and the resulting pool is inside the dictionary's small-pool
region. -/
theorem dinv_key_update_go :
    ∀ (fuel : Nat) (hw : Hw) (v2p : V2P) (st : DictCacheEntry) (name : String)
      (data : List Nat) (offset : Nat) (alloc_hint : Option Nat)
      (truncate : Bool) (ptr : Nat) (out : Sys) (r : Nat),
      key_update_go fuel hw v2p st name data offset alloc_hint truncate ptr
        = .ok out r →
      DInv st →
      out.dce.small_pool.length ≤ MAXSLOTS →
      DInv out.dce := by
  intro fuel
  induction fuel with
  | zero =>
      intro hw v2p st name data offset ah tr ptr out r h _ _
      exact absurd h (by simp [key_update_go])
  | succ fuel ih =>
      intro hw v2p st name data offset ah tr ptr out r h hinv hlen
      have hinv0 : DInv { st with age := satAdd1 st.age, clean := false } := hinv
      simp only [key_update_go] at h
      split at h
      case h_1 => exact absurd h (by simp)
      case h_2 st1 found hens =>
        obtain ⟨hinv1, hf, ht⟩ :=
          ensure_ok hw v2p { st with age := satAdd1 st.age, clean := false }
            name st1 found hens hinv0
        split at h
        case isTrue hfound =>
          split at h
          case h_1 => exact absurd h (by simp)
          case h_2 kcache hkm =>
            obtain ⟨kv, hkv1, hkv2⟩ := ht hfound
            rw [hkm] at hkv1
            injection hkv1 with hkv1
            subst hkv1
            split at h
            case isTrue hres =>
              split at h
              case h_1 => exact absurd h (by simp)
              case h_2 hw2 v2p2 st2 hkr =>
                exact ih hw2 v2p2 st2 name data offset ah tr ptr out r h
                  (dinv_key_remove hw v2p st1 name false (hw2, v2p2, st2) hkr hinv1)
                  hlen
            case isFalse hres =>
              split at h
              case isTrue hsmall =>
                split at h
                case h_1 hw2 v2p2 st2 hsu =>
                  injection h with h1 h2
                  subst h1
                  exact dinv_smallUpdate hw v2p st1 name kcache data offset
                    (hw2, v2p2, st2) hsu hinv1 hkm hkv2
                case h_2 => exact absurd h (by simp)
              case isFalse hbig =>
                split at h
                case h_1 => exact absurd h (by simp)
                case h_2 hkd =>
                  split at h
                  case h_1 hw2 v2p2 st2 hlu =>
                    injection h with h1 h2
                    subst h1
                    exact dinv_largeUpdate hw v2p st1 name kcache data offset tr
                      (hw2, v2p2, st2) hlu hinv1 hkm hbig
                  case h_2 => exact absurd h (by simp)
        case isFalse hfound =>
          have hff : found = false := by
            cases found
            · rfl
            · exact absurd rfl hfound
          obtain ⟨hst1, hninv⟩ := hf hff
          split at h
          case isTrue hsmall =>
            refine dinv_smallCreate hw v2p st1 name data offset ah ptr out r h
              hinv1 ?_ hsmall hlen
            intro k hk
            rw [hst1] at hk
            exact hninv k hk
          case isFalse hsmall =>
            split at h
            case h_1 => exact absurd h (by simp)
            case h_2 di st2 hgf =>
              obtain ⟨fk, ld, hsh⟩ := get_free_shape st1
              rw [hgf] at hsh
              simp only at hsh
              have hinv2 : DInv st2 := by
                rw [hsh]
                exact hinv1
              have hkeys2 : st2.keys = st1.keys := by rw [hsh]
              have habs : ∀ ksp ∈ st2.small_pool, ¬ name ∈ ksp.contents := by
                refine not_in_contents_of_invalid st2 hinv2.2.1 name ?_
                intro k hk hv
                rw [hkeys2, hst1] at hk
                rw [hninv k hk] at hv
                cases hv
              split at h
              case h_1 => exact absurd h (by simp)
              case h_2 hw2 v2p2 halloc =>
                exact ih hw2 v2p2 _ name data offset ah tr _ out r h
                  (dinv_kmPut_absent st2 name _ hinv2 habs) hlen

/-- A freshly constructed cache satisfies the invariant: its small-key
pool is empty. -/
theorem dinv_new (dict : Dictionary) (index : Nat) (aad : List Nat)
    (hidx : INDEX_OK index) : DInv (DictCacheEntry.new dict index aad) := by
  refine ⟨?_, ?_, ?_, hidx⟩
  · intro ksp hk
    cases hk
  · intro ksp hk
    cases hk
  · intro n
    simp [occCount, DictCacheEntry.new]

/-- One successful public operation preserves the invariant, provided it
leaves the pool inside the dictionary's small-pool region. -/
theorem dinv_stepOp (s s2 : Sys) (op : Op)
    (h : stepOp s op = .ok s2 ())
    (hinv : DInv s.dce)
    (hlenIn : s.dce.small_pool.length ≤ MAXSLOTS)
    (hlenOut : s2.dce.small_pool.length ≤ MAXSLOTS) :
    DInv s2.dce := by
  cases op with
  | update name data offset hint trunc ptr =>
      unfold stepOp at h
      simp only [] at h
      cases heq : key_update s.hw s.v2p s.dce name data offset hint trunc ptr with
      | ok sy r =>
          rw [heq] at h
          simp only [] at h
          injection h with h1 h2
          subst h1
          exact dinv_key_update_go 4 s.hw s.v2p s.dce name data offset hint trunc
            ptr sy r heq hinv hlenOut
      | error sy e =>
          rw [heq] at h
          exact absurd h (by simp)
      | panic e =>
          rw [heq] at h
          exact absurd h (by simp)
  | remove name paranoid =>
      unfold stepOp at h
      simp only [] at h
      cases heq : key_remove s.hw s.v2p s.dce name paranoid with
      | ok p =>
          obtain ⟨hw2, v2p2, dce2⟩ := p
          rw [heq] at h
          simp only [] at h
          injection h with h1 h2
          subst h1
          exact dinv_key_remove s.hw s.v2p s.dce name paranoid (hw2, v2p2, dce2)
            heq hinv
      | error e =>
          rw [heq] at h
          exact absurd h (by simp)
  | syncSmall =>
      unfold stepOp at h
      simp only [] at h
      cases heq : sync_small_pool s.hw s.v2p s.dce with
      | ok p =>
          obtain ⟨hw2, v2p2, dce2⟩ := p
          rw [heq] at h
          simp only [] at h
          injection h with h1 h2
          subst h1
          exact dinv_sync_small_pool s.hw s.v2p s.dce (hw2, v2p2, dce2) hinv
            hlenIn heq
      | error e =>
          rw [heq] at h
          exact absurd h (by simp)
  | syncLarge =>
      unfold stepOp at h
      simp only [] at h
      injection h with h1 h2
      subst h1
      exact hinv
  | fillOp =>
      unfold stepOp at h
      simp only [] at h
      cases heq : fill s.hw s.v2p s.dce with
      | ok p =>
          obtain ⟨dce2, x⟩ := p
          rw [heq] at h
          simp only [] at h
          injection h with h1 h2
          subst h1
          exact dinv_fill s.hw s.v2p s.dce (dce2, x) heq hinv
      | error e =>
          rw [heq] at h
          exact absurd h (by simp)
  | ensureOp name =>
      unfold stepOp at h
      simp only [] at h
      cases heq : ensure_key_entry s.hw s.v2p s.dce name with
      | ok p =>
          obtain ⟨dce2, b⟩ := p
          rw [heq] at h
          simp only [] at h
          injection h with h1 h2
          subst h1
          exact (ensure_ok s.hw s.v2p s.dce name dce2 b heq hinv).1
      | error e =>
          rw [heq] at h
          exact absurd h (by simp)
  | keyListOp =>
      unfold stepOp at h
      simp only [] at h
      cases heq : key_list s.hw s.v2p s.dce with
      | ok p =>
          obtain ⟨dce2, l⟩ := p
          rw [heq] at h
          simp only [] at h
          injection h with h1 h2
          subst h1
          exact dinv_key_list s.hw s.v2p s.dce (dce2, l) heq hinv
      | error e =>
          rw [heq] at h
          exact absurd h (by simp)
  | eraseOp name =>
      exact absurd h (by simp [stepOp])

/-- Every `ReachableOk` state satisfies the full invariant and the pool
bound. -/
theorem reachableOk_dinv (s : Sys) (hr : ReachableOk s) :
    DInv s.dce ∧ s.dce.small_pool.length ≤ MAXSLOTS := by
  induction hr with
  | init dict index aad hw v2p hidx =>
      exact ⟨dinv_new dict index aad hidx, by simp [DictCacheEntry.new, MAXSLOTS]⟩
  | step s s2 op hr hstep hlen ih =>
      exact ⟨dinv_stepOp s s2 op hstep ih.1 ih.2 hlen, hlen⟩

/-- C8 (amended): in every state reachable from a freshly constructed
`DictCacheEntry` (dictionary index inside the small-pool region) by public
operations each of which completes without panicking and without returning
an error, and along which the small pool never outgrows the dictionary's
small-pool region, every small-pool slot satisfies: the sum of the
`reserved` fields of the keys its `contents` name, plus its `avail`,
equals `SMALL_CAPACITY`. -/
theorem c8_amended (s : Sys) (hr : ReachableOk s) : smallPoolInv s.dce :=
  (reachableOk_dinv s hr).1.1

/-- Witness for C8 (amended): the invariant holds in a concrete reachable
state. -/
theorem c8_amended_witness :
    smallPoolInv
      (({ hw := hwBlank, v2p := [], dce := DictCacheEntry.new dictDefault 1 [] } :
        Sys).dce) :=
  c8_amended
    { hw := hwBlank, v2p := [], dce := DictCacheEntry.new dictDefault 1 [] }
    (ReachableOk.init dictDefault 1 [] hwBlank [] (by unfold INDEX_OK; decide))
